import Mathlib

/-!
Verification of the bokeh blur library (complex Gaussian kernel construction,
joint normalization, separable convolution with dropped-tap borders, gamma
codec, masked writeback) against its specification.

The Rust source (`src/complex.rs`, `src/params.rs`) works on `f64`; the
embedding models `f64` arithmetic by exact real arithmetic `ℝ`.  Slice
indexing that can panic in Rust is modelled in the `Option` monad: a read
through `List.getElem?` that falls outside the buffer yields `none`, which
propagates and makes the whole call `none` (the model of a panic).  Buffers
are `List`s, mutation is modelled by returning the updated list.
-/

namespace Bokeh

/-- One complex sample `(re, im)`, the embedding of `num::Complex<f64>`. -/
abbrev ComplexSample := ℝ × ℝ

/-- Complex multiplication of two samples. -/
def cmul (x y : ComplexSample) : ComplexSample :=
  (x.1 * y.1 - x.2 * y.2, x.1 * y.2 + x.2 * y.1)

/-- A complex pixel: one complex sample per channel (`[Complex<f64>; 4]`). -/
abbrev ComplexPixel := Fin 4 → ComplexSample

/-- The all-zero complex pixel (`Complex::default()` in every channel). -/
def cZeroPix : ComplexPixel := fun _ => (0, 0)

/-- Multiply every channel of a pixel by one kernel tap
(the `*out_subpixel += in_subpixel * k` body without the accumulation). -/
def cmulPix (p : ComplexPixel) (k : ComplexSample) : ComplexPixel := fun c => cmul (p c) k

/-- A real 4-channel pixel (`[f64; 4]`). -/
abbrev RealPixel := Fin 4 → ℝ

/-- The all-zero real pixel. -/
def rZeroPix : RealPixel := fun _ => 0

/-- Embedding of `KernelParamSet`: a flat list of parameters, four per
kernel component. -/
structure KernelParamSet where
  params : List ℝ

namespace KernelParamSet

/-- `params[4 * index]`. -/
def a (s : KernelParamSet) (index : ℕ) : ℝ := s.params.getD (4 * index) 0

/-- `params[4 * index + 1]`. -/
def b (s : KernelParamSet) (index : ℕ) : ℝ := s.params.getD (4 * index + 1) 0

/-- `params[4 * index + 2]`. -/
def real_component (s : KernelParamSet) (index : ℕ) : ℝ := s.params.getD (4 * index + 2) 0

/-- `params[4 * index + 3]`. -/
def imag_component (s : KernelParamSet) (index : ℕ) : ℝ := s.params.getD (4 * index + 3) 0

/-- `params.len() / 4`. -/
def num_kernels (s : KernelParamSet) : ℕ := s.params.length / 4

end KernelParamSet

/-- The 1-component preset parameter list (`KERNEL1_PARAMS`). -/
def KERNEL1_PARAMS : List ℝ := [
  0.862325, 1.624835, 0.767583, 1.862321]

/-- The shipped 1-component preset table (`KERNEL1_PARAM_SET`). -/
def KERNEL1_PARAM_SET : KernelParamSet := ⟨KERNEL1_PARAMS⟩

/-- The 2-component preset parameter list (`KERNEL2_PARAMS`). -/
def KERNEL2_PARAMS : List ℝ := [
  0.886528, 5.268909, 0.411259, -0.548794,
  1.960518, 1.558213, 0.513282, 4.561110]

/-- The shipped 2-component preset table (`KERNEL2_PARAM_SET`). -/
def KERNEL2_PARAM_SET : KernelParamSet := ⟨KERNEL2_PARAMS⟩

/-- The 3-component preset parameter list (`KERNEL3_PARAMS`). -/
def KERNEL3_PARAMS : List ℝ := [
  2.176490, 5.043495, 1.621035, -2.105439,
  1.019306, 9.027613, -0.280860, -0.162882,
  2.815110, 1.597273, -0.366471, 10.300301]

/-- The shipped 3-component preset table (`KERNEL3_PARAM_SET`). -/
def KERNEL3_PARAM_SET : KernelParamSet := ⟨KERNEL3_PARAMS⟩

/-- The 4-component preset parameter list (`KERNEL4_PARAMS`). -/
def KERNEL4_PARAMS : List ℝ := [
  4.338459, 1.553635, -5.767909, 46.164397,
  3.839993, 4.693183, 9.795391, -15.227561,
  2.791880, 8.178137, -3.048324, 0.302959,
  1.342190, 12.328289, 0.010001, 0.244650]

/-- The shipped 4-component preset table (`KERNEL4_PARAM_SET`). -/
def KERNEL4_PARAM_SET : KernelParamSet := ⟨KERNEL4_PARAMS⟩

/-- The 5-component preset parameter list (`KERNEL5_PARAMS`). -/
def KERNEL5_PARAMS : List ℝ := [
  4.892608, 1.685979, -22.356787, 85.912460,
  4.711870, 4.998496, 35.918936, -28.875618,
  4.052795, 8.244168, -13.212253, -1.578428,
  2.929212, 11.900859, 0.507991, 1.816328,
  1.512961, 16.116382, 0.138051, -0.010000]

/-- The shipped 5-component preset table (`KERNEL5_PARAM_SET`). -/
def KERNEL5_PARAM_SET : KernelParamSet := ⟨KERNEL5_PARAMS⟩

/-- The 6-component preset parameter list (`KERNEL6_PARAMS`). -/
def KERNEL6_PARAMS : List ℝ := [
  5.143778, 2.079813, -82.326596, 111.231024,
  5.612426, 6.153387, 113.878661, 58.004879,
  5.982921, 9.802895, 39.479083, -162.028887,
  6.505167, 11.059237, -71.286026, 95.027069,
  3.869579, 14.810520, 1.405746, -3.704914,
  2.201904, 19.032909, -0.152784, -0.107988]

/-- The shipped 6-component preset table (`KERNEL6_PARAM_SET`). -/
def KERNEL6_PARAM_SET : KernelParamSet := ⟨KERNEL6_PARAMS⟩

/-- The 7-component preset parameter list (`KERNEL7_PARAMS`). -/
def KERNEL7_PARAMS : List ℝ := [
  5.635755002716984, 2.0161846499938942, -127.67050821204298, 189.13366250400748,
  6.2265180958586, 6.010948636588568, 255.34251414243556, 37.55094949608352,
  6.189230711552051, 8.269383035533139, -132.2590521372958, -101.7059257653572,
  4.972166727344845, 12.050001393751478, -0.1843113559893084, 27.06823846423038,
  4.323578237784037, 16.00101043380645, 5.837168074459592, 0.3359847314948253,
  3.6920668221834534, 19.726797144782385, 0.010115759114852045, -1.091291088554394,
  2.2295702188720004, 23.527764286361837, -0.07655024461742256, 0.01001768577317681]

/-- The shipped 7-component preset table (`KERNEL7_PARAM_SET`). -/
def KERNEL7_PARAM_SET : KernelParamSet := ⟨KERNEL7_PARAMS⟩

/-- The 8-component preset parameter list (`KERNEL8_PARAMS`). -/
def KERNEL8_PARAMS : List ℝ := [
  6.6430131554059075, 2.33925731610851, -665.7557728544768, 445.83362839529286,
  8.948432332999396, 5.775418437190626, 1130.5906034230607, 15.626805026300797,
  6.513143649767612, 8.05507417830653, -419.50196449095665, -9.275778572724292,
  6.245927989258722, 12.863350894308521, -100.85574814870866, 79.1599400003683,
  6.713191682126933, 17.072272272191718, 36.65346659449611, 118.71908139892597,
  7.071814347005397, 18.719212513078034, 21.63902100281763, -77.52385953960055,
  4.932882961391405, 22.545463415981025, -1.9683109176118303, 3.0163201264848736,
  3.456372395841802, 26.088356168016503, 0.19835893874241894, 0.08089803872063023]

/-- The shipped 8-component preset table (`KERNEL8_PARAM_SET`). -/
def KERNEL8_PARAM_SET : KernelParamSet := ⟨KERNEL8_PARAMS⟩

/-- The 9-component preset parameter list (`KERNEL9_PARAMS`). -/
def KERNEL9_PARAMS : List ℝ := [
  7.393797857697906, 2.4737002456790207, -1796.6881230069646, 631.9043430000561,
  13.246479495224113, 6.216076882495199, 3005.0995149934884, 169.0878309991149,
  7.303628653874887, 7.783952969919921, -1058.5279460078423, 459.6898389991668,
  8.154742557454425, 13.430399706116823, -1720.108330007715, 810.6026949975844,
  8.381657431347698, 14.90360902110027, 1568.5705749924186, 285.01830799719926,
  6.866935986644192, 20.281841043506173, 90.55436499314388, -59.610040004419275,
  9.585395987559902, 21.80265398520623, -93.26089100639886, -111.18596800373774,
  5.4836869943565825, 25.89243600015612, 5.110650995956478, 0.009999997374460896,
  5.413819000655994, 28.96548499880915, 0.2499879943861626, -0.8591239990799346]

/-- The shipped 9-component preset table (`KERNEL9_PARAM_SET`). -/
def KERNEL9_PARAM_SET : KernelParamSet := ⟨KERNEL9_PARAMS⟩

/-- Unnormalised complex Gaussian kernel (`complex_gaussian_kernel`): a
vector of `1 + kernel_radius * 2` taps; the tap written at index
`i + kernel_radius` for offset `i ∈ [-kernel_radius, kernel_radius]` is
`(exp(-a*ax²)·cos(b*ax²), exp(-a*ax²)·sin(b*ax²))` with
`ax = i * r / kernel_radius`. -/
noncomputable def complex_gaussian_kernel (r : ℝ) (kernel_radius : ℕ) (a b : ℝ) :
    List ComplexSample :=
  (List.range (1 + kernel_radius * 2)).map fun (idx : ℕ) =>
    let i : ℤ := (idx : ℤ) - (kernel_radius : ℤ)
    let ax : ℝ := (i : ℝ) * r / (kernel_radius : ℝ)
    let ax2 : ℝ := ax * ax
    let exp_a : ℝ := Real.exp (-a * ax2)
    (exp_a * Real.cos (b * ax2), exp_a * Real.sin (b * ax2))

/-- The inner double loop of the normalization sum for component `n`:
`Σ_i Σ_j rw·(i.re·j.re − i.im·j.im) + iw·(i.re·j.im + i.im·j.re)`. -/
def kernelPairSum (params : KernelParamSet) (n : ℕ) (k : List ComplexSample) : ℝ :=
  (k.map fun i =>
    (k.map fun j =>
      params.real_component n * (i.1 * j.1 - i.2 * j.2) +
        params.imag_component n * (i.1 * j.2 + i.2 * j.1)).sum).sum

/-- The family energy `S`: the enumerated fold over all kernels of the
per-component pair sums (the `fold` computing `sum` in
`complex_gaussian_kernels`, before `.sqrt()`). -/
def familyEnergy (params : KernelParamSet) (kernels : List (List ComplexSample)) : ℝ :=
  kernels.enum.foldl (fun acc nk => acc + kernelPairSum params nk.1 nk.2) 0

/-- The unnormalised kernel family: one `complex_gaussian_kernel` per
component of the parameter table. -/
noncomputable def rawKernels (params : KernelParamSet) (r : ℝ) (kernel_radius : ℕ) :
    List (List ComplexSample) :=
  (List.range params.num_kernels).map fun i =>
    complex_gaussian_kernel r kernel_radius (params.a i) (params.b i)

/-- `complex_gaussian_kernels`: build all unnormalised kernels, compute
`sum = sqrt(S)`, and divide every sample of every kernel by `sum`. -/
noncomputable def complex_gaussian_kernels (params : KernelParamSet) (r : ℝ)
    (kernel_radius : ℕ) : List (List ComplexSample) :=
  let kernels := rawKernels params r kernel_radius
  let sum := Real.sqrt (familyEnergy params kernels)
  kernels.map fun kernel => kernel.map fun elem => (elem.1 / sum, elem.2 / sum)

/-- Inner tap loop of `horizontal_filter` for the middle region
(`half_width ≤ i < w - half_width`): no bounds check, the source offset is
`i - half_width + n` (non-negative because `i ≥ half_width`). -/
noncomputable def outPixelMid (input : List ComplexPixel) (kernel : List ComplexSample)
    (w j i half_width : ℕ) : Option ComplexPixel :=
  kernel.enum.foldlM
    (fun acc nk =>
      (input[j * w + (i - half_width + nk.1)]?).map fun p => acc + cmulPix p nk.2)
    cZeroPix

/-- Inner tap loop of `horizontal_filter` for the border region: taps with
source column `x = i - half_width + n` outside `[0, w)` are skipped
(`continue`), all other taps are read and accumulated. -/
noncomputable def outPixelBorder (input : List ComplexPixel) (kernel : List ComplexSample)
    (w j i half_width : ℕ) : Option ComplexPixel :=
  kernel.enum.foldlM
    (fun acc nk =>
      let x : ℤ := (i : ℤ) - (half_width : ℤ) + (nk.1 : ℤ)
      if x < 0 ∨ (w : ℤ) ≤ x then pure acc
      else (input[j * w + x.toNat]?).map fun p => acc + cmulPix p nk.2)
    cZeroPix

/-- `horizontal_filter`: every output position `(j, i)` (stored at
`j*w + i`) is produced by the unchecked middle loop when
`half_width ≤ i < w - half_width` and by the bounds-checked border loop
otherwise.  The source writes a zero-initialised output buffer from two
loops covering exactly these index sets (writing identical values where
they overlap); the embedding builds the same buffer positionally. -/
noncomputable def horizontal_filter (input : List ComplexPixel) (kernel : List ComplexSample)
    (w h : ℕ) : Option (List ComplexPixel) :=
  let half_width := kernel.length / 2
  (List.range (w * h)).mapM fun idx =>
    let j := idx / w
    let i := idx % w
    if half_width ≤ i ∧ i < w - half_width then outPixelMid input kernel w j i half_width
    else outPixelBorder input kernel w j i half_width

/-- Inner tap loop of `vertical_filter` for the middle region
(`half_width ≤ j < h - half_width`): reads row `j - half_width + n`, no
bounds check. -/
noncomputable def outPixelMidV (input : List ComplexPixel) (kernel : List ComplexSample)
    (w j i half_width : ℕ) : Option ComplexPixel :=
  kernel.enum.foldlM
    (fun acc nk =>
      (input[(j - half_width + nk.1) * w + i]?).map fun p => acc + cmulPix p nk.2)
    cZeroPix

/-- Inner tap loop of `vertical_filter` for the border region: taps with
source row `y = j - half_width + n` outside `[0, h)` are skipped. -/
noncomputable def outPixelBorderV (input : List ComplexPixel) (kernel : List ComplexSample)
    (w h j i half_width : ℕ) : Option ComplexPixel :=
  kernel.enum.foldlM
    (fun acc nk =>
      let y : ℤ := (j : ℤ) - (half_width : ℤ) + (nk.1 : ℤ)
      if y < 0 ∨ (h : ℤ) ≤ y then pure acc
      else (input[y.toNat * w + i]?).map fun p => acc + cmulPix p nk.2)
    cZeroPix

/-- `vertical_filter`: column analogue of `horizontal_filter`. -/
noncomputable def vertical_filter (input : List ComplexPixel) (kernel : List ComplexSample)
    (w h : ℕ) : Option (List ComplexPixel) :=
  let half_width := kernel.length / 2
  (List.range (w * h)).mapM fun idx =>
    let j := idx / w
    let i := idx % w
    if half_width ≤ j ∧ j < h - half_width then outPixelMidV input kernel w j i half_width
    else outPixelBorderV input kernel w h j i half_width

/-- Gamma encoding of one channel: `x.powf(gamma)`, modelled by `Real.rpow`.
The model is faithful to `f64::powf` for positive bases and, at base `0`,
for positive exponents (`powf(0, γ) = 0 = rpow 0 γ` for `γ > 0`); `f64`
yields the non-finite `+inf` for `powf(0, γ)` with `γ < 0`, which has no
real value, so theorems that evaluate this path assume `γ > 0`. -/
noncomputable def gammaEncode (x γ : ℝ) : ℝ := x ^ γ

/-- Rust's `f64::clamp(lo, hi)`. -/
def clampR (x lo hi : ℝ) : ℝ := min (max x lo) hi

/-- Gamma decoding of one channel: `x.powf(1.0 / gamma).clamp(0.0, 255.0)`,
modelled by `Real.rpow`.  As with `gammaEncode`, the model agrees with
`f64::powf` except on the non-finite paths at base `0` with `1/γ ≤ 0`
(`f64` gives `clamp(+inf) = 255` for `γ < 0` and `powf(0, 1/0 = +inf) = 0`
at `γ = 0`), so theorems that evaluate a zero base assume `γ > 0`. -/
noncomputable def gammaDecode (x γ : ℝ) : ℝ := clampR (x ^ (1 / γ)) 0 255

/-- `ComplexImage::from_slice`: gamma-encode every channel of every pixel
and inject it as the real part of a complex sample. -/
noncomputable def from_slice (img : List RealPixel) (γ : ℝ) : List ComplexPixel :=
  img.map fun c => fun ch => (gammaEncode (c ch) γ, 0)

/-- Per-pixel gamma decode used in the write-back loops of `bokeh_blur`
and `bokeh_blur_with_mask`. -/
noncomputable def decodePix (px : RealPixel) (γ : ℝ) : RealPixel := fun c => gammaDecode (px c) γ

/-- `ComplexImage::bokeh_blur`: for every component `n`, run
`vertical_filter` on the `horizontal_filter` output for kernel `n`, fold
the complex result into a real image with weights
`real_component n`/`imag_component n`, and reduce the per-component
images by elementwise addition starting from the all-zero image. -/
noncomputable def ComplexImage.bokeh_blur (pixels : List ComplexPixel) (w h : ℕ)
    (param_set : KernelParamSet) (r : ℝ) (kernel_radius : ℕ) : Option (List RealPixel) :=
  ((complex_gaussian_kernels param_set r kernel_radius).enum.mapM fun nk =>
    (horizontal_filter pixels nk.2 w h).bind fun temp =>
      (vertical_filter temp nk.2 w h).map fun v =>
        v.map fun pixel => fun c =>
          param_set.real_component nk.1 * (pixel c).1 +
            param_set.imag_component nk.1 * (pixel c).2).map
    fun imgs =>
      imgs.foldl (fun x y => List.zipWith (fun u v => u + v) x y)
        (List.replicate (w * h) rZeroPix)

/-- Top-level `bokeh_blur`: gamma-encode, blur, then write every decoded
pixel back over the input buffer (`img[n] = rgba.map(powf(1/γ).clamp)`). -/
noncomputable def bokeh_blur (img : List RealPixel) (width height : ℕ) (r : ℝ)
    (kernel_radius : ℕ) (γ : ℝ) (param_set : KernelParamSet) : Option (List RealPixel) :=
  (ComplexImage.bokeh_blur (from_slice img γ) width height param_set r kernel_radius).map
    fun blurred => blurred.enum.foldl (fun acc nr => acc.set nr.1 (decodePix nr.2 γ)) img

/-- Top-level `bokeh_blur_with_mask`: as `bokeh_blur`, but the enumerated
blurred pixels are zipped with the mask (truncating to the shorter of the
two) and a pixel is written back only where its mask entry is `true`. -/
noncomputable def bokeh_blur_with_mask (img : List RealPixel) (mask : List Bool)
    (width height : ℕ) (r : ℝ) (kernel_radius : ℕ) (γ : ℝ) (param_set : KernelParamSet) :
    Option (List RealPixel) :=
  (ComplexImage.bokeh_blur (from_slice img γ) width height param_set r kernel_radius).map
    fun blurred =>
      (blurred.enum.zip mask).foldl
        (fun acc nrb => if nrb.2 then acc.set nrb.1.1 (decodePix nrb.1.2 γ) else acc) img

/-- Specification-side horizontal filter, written from the spec sentence:
output position `(j, i)`, channel `c`, is the sum over tap indices
`n ∈ [0, kernel.len)` whose source column `i - half_width + n` lies in
`[0, w)` of `input[j*w + (i - half_width + n)][c] * kernel[n]`; all other
taps contribute nothing. -/
def hFilterSpec (input : List ComplexPixel) (kernel : List ComplexSample) (w h : ℕ) :
    List ComplexPixel :=
  let half_width := kernel.length / 2
  (List.range (w * h)).map fun idx =>
    let j := idx / w
    let i := idx % w
    ((List.range kernel.length).map fun (n : ℕ) =>
      let x : ℤ := (i : ℤ) - (half_width : ℤ) + (n : ℤ)
      if 0 ≤ x ∧ x < (w : ℤ) then
        cmulPix (input.getD (j * w + x.toNat) cZeroPix) (kernel.getD n (0, 0))
      else 0).sum

/-- Specification-side vertical filter: the analogous column sum over
source rows `j - half_width + n` lying in `[0, h)`. -/
def vFilterSpec (input : List ComplexPixel) (kernel : List ComplexSample) (w h : ℕ) :
    List ComplexPixel :=
  let half_width := kernel.length / 2
  (List.range (w * h)).map fun idx =>
    let j := idx / w
    let i := idx % w
    ((List.range kernel.length).map fun (n : ℕ) =>
      let y : ℤ := (j : ℤ) - (half_width : ℤ) + (n : ℤ)
      if 0 ≤ y ∧ y < (h : ℤ) then
        cmulPix (input.getD (y.toNat * w + i) cZeroPix) (kernel.getD n (0, 0))
      else 0).sum


/-- Specification-side form of `ComplexImage.bokeh_blur`: the per-component
images (vertical of horizontal spec filters, folded to real with the
component weights), reduced by elementwise addition from the all-zero
image. -/
noncomputable def blurCoreSpec (pixels : List ComplexPixel) (w h : ℕ)
    (param_set : KernelParamSet) (r : ℝ) (kernel_radius : ℕ) : List RealPixel :=
  ((complex_gaussian_kernels param_set r kernel_radius).enum.map fun nk =>
    (vFilterSpec (hFilterSpec pixels nk.2 w h) nk.2 w h).map fun pixel => fun c =>
      param_set.real_component nk.1 * (pixel c).1 +
        param_set.imag_component nk.1 * (pixel c).2).foldl
    (fun x y => List.zipWith (fun u v => u + v) x y) (List.replicate (w * h) rZeroPix)

/-- The constant real pixel with value `x` in every channel. -/
def constRPix (x : ℝ) : RealPixel := fun _ => x

/-! ### Basic list/index utilities -/

theorem cZeroPix_eq_zero : cZeroPix = 0 := rfl

theorem rZeroPix_eq_zero : rZeroPix = 0 := rfl

theorem idx_lt {j x w h : ℕ} (hj : j < h) (hx : x < w) : j * w + x < w * h := by
  calc j * w + x < j * w + w := by omega
  _ = (j + 1) * w := by ring
  _ ≤ h * w := Nat.mul_le_mul_right w hj
  _ = w * h := Nat.mul_comm h w

theorem getElem?_eq_some_getD {α : Type} (l : List α) (n : ℕ) (d : α) (h : n < l.length) :
    l[n]? = some (l.getD n d) := by
  rw [List.getD_eq_getElem?_getD, List.getElem?_eq_getElem h]
  rfl

/-! ### Characterization of the tap-accumulation folds -/

theorem optionBindSome {α β : Type} (x : α) (f : α → Option β) :
    (do let y ← some x; f y) = f x := rfl

theorem optionBindPure {α β : Type} (x : α) (f : α → Option β) :
    (do let y ← (pure x : Option α); f y) = f x := rfl

theorem foldlM_mid (input : List ComplexPixel) (ker : List ComplexSample) (read : ℕ → ℕ) :
    ∀ (s : ℕ) (acc : ComplexPixel),
      (∀ t, t < ker.length → read (s + t) < input.length) →
      (ker.enumFrom s).foldlM
        (fun acc nk => (input[read nk.1]?).map fun p => acc + cmulPix p nk.2) acc
      = some (acc + ((List.range ker.length).map fun t =>
          cmulPix (input.getD (read (s + t)) cZeroPix) (ker.getD t (0, 0))).sum) := by
  induction ker with
  | nil => intro s acc _; simp
  | cons k ks ih =>
    intro s acc hb
    rw [List.enumFrom_cons, List.foldlM_cons,
      getElem?_eq_some_getD input _ cZeroPix (by
        have := hb 0 (by simp)
        simpa using this)]
    simp only [Option.map_some']
    rw [optionBindSome]
    rw [ih (s + 1) _ (fun t ht => by
      have heq : s + 1 + t = s + (t + 1) := by omega
      rw [heq]
      exact hb (t + 1) (by simp; omega))]
    congr 1
    simp only [List.length_cons, List.range_succ_eq_map, List.map_cons, List.map_map,
      List.sum_cons, Nat.add_zero, List.getD_cons_zero, Function.comp_def,
      List.getD_cons_succ, Nat.succ_eq_add_one, add_assoc]
    congr 2
    congr 1
    apply List.map_congr_left
    intro t _
    have heq : s + (1 + t) = s + (t + 1) := by omega
    rw [heq]

theorem foldlM_border (input : List ComplexPixel) (ker : List ComplexSample)
    (base hw bound : ℕ) (read : ℕ → ℕ) :
    ∀ (s : ℕ) (acc : ComplexPixel),
      (∀ t, t < ker.length → ¬((base : ℤ) - (hw : ℤ) + ((s + t : ℕ) : ℤ) < 0 ∨
          (bound : ℤ) ≤ (base : ℤ) - (hw : ℤ) + ((s + t : ℕ) : ℤ)) →
        read ((base : ℤ) - (hw : ℤ) + ((s + t : ℕ) : ℤ)).toNat < input.length) →
      (ker.enumFrom s).foldlM
        (fun acc nk =>
          let x : ℤ := (base : ℤ) - (hw : ℤ) + (nk.1 : ℤ)
          if x < 0 ∨ (bound : ℤ) ≤ x then pure acc
          else (input[read x.toNat]?).map fun p => acc + cmulPix p nk.2) acc
      = some (acc + ((List.range ker.length).map fun t =>
          let x : ℤ := (base : ℤ) - (hw : ℤ) + ((s + t : ℕ) : ℤ)
          if x < 0 ∨ (bound : ℤ) ≤ x then 0
          else cmulPix (input.getD (read x.toNat) cZeroPix) (ker.getD t (0, 0))).sum) := by
  induction ker with
  | nil => intro s acc _; simp
  | cons k ks ih =>
    intro s acc hb
    have hcast : ∀ t : ℕ, ((s + 1 + t : ℕ) : ℤ) = ((s + (t + 1) : ℕ) : ℤ) := by
      intro t; push_cast; ring
    rw [List.enumFrom_cons, List.foldlM_cons]
    by_cases hx : (base : ℤ) - (hw : ℤ) + ((s : ℕ) : ℤ) < 0 ∨
        (bound : ℤ) ≤ (base : ℤ) - (hw : ℤ) + ((s : ℕ) : ℤ)
    · simp only
      rw [if_pos hx, optionBindPure]
      rw [ih (s + 1) acc (fun t ht hc => by
        rw [hcast t] at hc ⊢
        exact hb (t + 1) (by simp; omega) hc)]
      congr 1
      simp only [List.length_cons, List.range_succ_eq_map, List.map_cons, List.map_map,
        List.sum_cons, Nat.add_zero, Function.comp_def, List.getD_cons_succ,
        Nat.succ_eq_add_one]
      rw [if_pos hx, zero_add]
      congr 1
      congr 1
      apply List.map_congr_left
      intro t _
      rw [hcast t]
    · simp only
      rw [if_neg hx]
      rw [getElem?_eq_some_getD input _ cZeroPix (by
        have := hb 0 (by simp) (by simpa using hx)
        simpa using this)]
      simp only [Option.map_some']
      rw [optionBindSome]
      rw [ih (s + 1) _ (fun t ht hc => by
        rw [hcast t] at hc ⊢
        exact hb (t + 1) (by simp; omega) hc)]
      congr 1
      simp only [List.length_cons, List.range_succ_eq_map, List.map_cons, List.map_map,
        List.sum_cons, Nat.add_zero, List.getD_cons_zero, Function.comp_def,
        List.getD_cons_succ, Nat.succ_eq_add_one]
      rw [if_neg hx]
      rw [add_assoc]
      congr 2
      congr 1
      apply List.map_congr_left
      intro t _
      rw [hcast t]

/-! ### Per-pixel characterizations of the four tap loops -/

theorem outPixelMid_eq (input : List ComplexPixel) (ker : List ComplexSample) (w j i hw : ℕ)
    (hb : ∀ t, t < ker.length → j * w + (i - hw + t) < input.length) :
    outPixelMid input ker w j i hw = some (((List.range ker.length).map fun t =>
      cmulPix (input.getD (j * w + (i - hw + t)) cZeroPix) (ker.getD t (0, 0))).sum) := by
  have h := foldlM_mid input ker (fun n => j * w + (i - hw + n)) 0 cZeroPix
    (by simpa using hb)
  simp only [Nat.zero_add, cZeroPix_eq_zero, zero_add] at h
  exact h

theorem outPixelMidV_eq (input : List ComplexPixel) (ker : List ComplexSample) (w j i hw : ℕ)
    (hb : ∀ t, t < ker.length → (j - hw + t) * w + i < input.length) :
    outPixelMidV input ker w j i hw = some (((List.range ker.length).map fun t =>
      cmulPix (input.getD ((j - hw + t) * w + i) cZeroPix) (ker.getD t (0, 0))).sum) := by
  have h := foldlM_mid input ker (fun n => (j - hw + n) * w + i) 0 cZeroPix
    (by simpa using hb)
  simp only [Nat.zero_add, cZeroPix_eq_zero, zero_add] at h
  exact h

theorem outPixelBorder_eq (input : List ComplexPixel) (ker : List ComplexSample) (w j i hw : ℕ)
    (hb : ∀ t, t < ker.length → ¬((i : ℤ) - (hw : ℤ) + (t : ℤ) < 0 ∨
        (w : ℤ) ≤ (i : ℤ) - (hw : ℤ) + (t : ℤ)) →
      j * w + ((i : ℤ) - (hw : ℤ) + (t : ℤ)).toNat < input.length) :
    outPixelBorder input ker w j i hw = some (((List.range ker.length).map fun (t : ℕ) =>
      let x : ℤ := (i : ℤ) - (hw : ℤ) + (t : ℤ)
      if x < 0 ∨ (w : ℤ) ≤ x then 0
      else cmulPix (input.getD (j * w + x.toNat) cZeroPix) (ker.getD t (0, 0))).sum) := by
  have h := foldlM_border input ker i hw w (fun n => j * w + n) 0 cZeroPix
    (by simpa using hb)
  simp only [Nat.zero_add, cZeroPix_eq_zero, zero_add] at h
  exact h

theorem outPixelBorderV_eq (input : List ComplexPixel) (ker : List ComplexSample)
    (w h j i hw : ℕ)
    (hb : ∀ t, t < ker.length → ¬((j : ℤ) - (hw : ℤ) + (t : ℤ) < 0 ∨
        (h : ℤ) ≤ (j : ℤ) - (hw : ℤ) + (t : ℤ)) →
      ((j : ℤ) - (hw : ℤ) + (t : ℤ)).toNat * w + i < input.length) :
    outPixelBorderV input ker w h j i hw = some (((List.range ker.length).map fun (t : ℕ) =>
      let y : ℤ := (j : ℤ) - (hw : ℤ) + (t : ℤ)
      if y < 0 ∨ (h : ℤ) ≤ y then 0
      else cmulPix (input.getD (y.toNat * w + i) cZeroPix) (ker.getD t (0, 0))).sum) := by
  have hh := foldlM_border input ker j hw h (fun n => n * w + i) 0 cZeroPix
    (by simpa using hb)
  simp only [Nat.zero_add, cZeroPix_eq_zero, zero_add] at hh
  exact hh

/-! ### The filters compute the dropped-tap convolution sums -/

theorem mapM_option_eq {α β : Type} (l : List α) (f : α → Option β) (g : α → β)
    (h : ∀ x ∈ l, f x = some (g x)) : l.mapM f = some (l.map g) := by
  induction l with
  | nil => rfl
  | cons x xs ih =>
    rw [List.mapM_cons, h x (List.mem_cons_self x xs),
      ih (fun y hy => h y (List.mem_cons_of_mem x hy))]
    simp

theorem horizontal_filter_eq (input : List ComplexPixel) (kernel : List ComplexSample)
    (w h : ℕ) (hlen : input.length = w * h) :
    horizontal_filter input kernel w h = some (hFilterSpec input kernel w h) := by
  unfold horizontal_filter hFilterSpec
  apply mapM_option_eq
  intro idx hidx
  rw [List.mem_range] at hidx
  have hw0 : 0 < w := by
    rcases Nat.eq_zero_or_pos w with h0 | h0
    · subst h0; simp at hidx
    · exact h0
  have hj : idx / w < h := by
    rw [Nat.div_lt_iff_lt_mul hw0]
    rwa [Nat.mul_comm w h] at hidx
  have hi : idx % w < w := Nat.mod_lt _ hw0
  by_cases hmid : kernel.length / 2 ≤ idx % w ∧ idx % w < w - kernel.length / 2
  · rw [if_pos hmid]
    rw [outPixelMid_eq input kernel w (idx / w) (idx % w) (kernel.length / 2)
      (fun t ht => by
        rw [hlen]
        exact idx_lt hj (by omega))]
    congr 1
    congr 1
    apply List.map_congr_left
    intro t ht
    rw [List.mem_range] at ht
    simp only
    rw [if_pos (show (0 : ℤ) ≤ ((idx % w : ℕ) : ℤ) - ((kernel.length / 2 : ℕ) : ℤ) + (t : ℤ) ∧
        ((idx % w : ℕ) : ℤ) - ((kernel.length / 2 : ℕ) : ℤ) + (t : ℤ) < (w : ℤ) from by
      constructor <;> omega)]
    rw [show (((idx % w : ℕ) : ℤ) - ((kernel.length / 2 : ℕ) : ℤ) + (t : ℤ)).toNat =
        idx % w - kernel.length / 2 + t from by omega]
  · rw [if_neg hmid]
    rw [outPixelBorder_eq input kernel w (idx / w) (idx % w) (kernel.length / 2)
      (fun t ht hc => by
        rw [hlen]
        exact idx_lt hj (by omega))]
    congr 1
    congr 1
    apply List.map_congr_left
    intro t ht
    simp only
    by_cases hc : (0 : ℤ) ≤ (idx % w : ℕ) - (kernel.length / 2 : ℕ) + (t : ℤ) ∧
        ((idx % w : ℕ) : ℤ) - ((kernel.length / 2 : ℕ) : ℤ) + (t : ℤ) < (w : ℤ)
    · rw [if_neg (by omega), if_pos (by exact_mod_cast hc)]
    · rw [if_pos (by omega), if_neg (by exact_mod_cast hc)]

theorem vertical_filter_eq (input : List ComplexPixel) (kernel : List ComplexSample)
    (w h : ℕ) (hlen : input.length = w * h) :
    vertical_filter input kernel w h = some (vFilterSpec input kernel w h) := by
  unfold vertical_filter vFilterSpec
  apply mapM_option_eq
  intro idx hidx
  rw [List.mem_range] at hidx
  have hw0 : 0 < w := by
    rcases Nat.eq_zero_or_pos w with h0 | h0
    · subst h0; simp at hidx
    · exact h0
  have hj : idx / w < h := by
    rw [Nat.div_lt_iff_lt_mul hw0]
    rwa [Nat.mul_comm w h] at hidx
  have hi : idx % w < w := Nat.mod_lt _ hw0
  by_cases hmid : kernel.length / 2 ≤ idx / w ∧ idx / w < h - kernel.length / 2
  · rw [if_pos hmid]
    rw [outPixelMidV_eq input kernel w (idx / w) (idx % w) (kernel.length / 2)
      (fun t ht => by
        rw [hlen]
        exact idx_lt (show idx / w - kernel.length / 2 + t < h by omega) hi)]
    congr 1
    congr 1
    apply List.map_congr_left
    intro t ht
    rw [List.mem_range] at ht
    simp only
    rw [if_pos (show (0 : ℤ) ≤ ((idx / w : ℕ) : ℤ) - ((kernel.length / 2 : ℕ) : ℤ) + (t : ℤ) ∧
        ((idx / w : ℕ) : ℤ) - ((kernel.length / 2 : ℕ) : ℤ) + (t : ℤ) < (h : ℤ) from by
      constructor <;> omega)]
    rw [show (((idx / w : ℕ) : ℤ) - ((kernel.length / 2 : ℕ) : ℤ) + (t : ℤ)).toNat =
        idx / w - kernel.length / 2 + t from by omega]
  · rw [if_neg hmid]
    rw [outPixelBorderV_eq input kernel w h (idx / w) (idx % w) (kernel.length / 2)
      (fun t ht hc => by
        rw [hlen]
        exact idx_lt (show (((idx / w : ℕ) : ℤ) - ((kernel.length / 2 : ℕ) : ℤ) +
          (t : ℤ)).toNat < h by omega) hi)]
    congr 1
    congr 1
    apply List.map_congr_left
    intro t ht
    simp only
    by_cases hc : (0 : ℤ) ≤ ((idx / w : ℕ) : ℤ) - ((kernel.length / 2 : ℕ) : ℤ) + (t : ℤ) ∧
        ((idx / w : ℕ) : ℤ) - ((kernel.length / 2 : ℕ) : ℤ) + (t : ℤ) < (h : ℤ)
    · rw [if_neg (by omega), if_pos (by exact_mod_cast hc)]
    · rw [if_pos (by omega), if_neg (by exact_mod_cast hc)]

/-! ### Claim C5: the kernel builder contract -/

/-- Claim C5: for every radius `r`, `sampleCount ≥ 1` and parameters `a`, `b`,
`complex_gaussian_kernel` returns a kernel of length exactly `2*sampleCount+1`
in which the tap at index `i + sampleCount`, for every discrete offset
`i ∈ [-sampleCount, sampleCount]`, equals
`exp(-a*ax2)*cos(b*ax2) + j*exp(-a*ax2)*sin(b*ax2)` where
`ax = i*r/sampleCount` and `ax2 = ax*ax`. -/
theorem complex_gaussian_kernel_contract (r : ℝ) (m : ℕ) (a b : ℝ) (hm : 1 ≤ m) :
    (complex_gaussian_kernel r m a b).length = 2 * m + 1 ∧
    ∀ i : ℤ, -(m : ℤ) ≤ i → i ≤ (m : ℤ) →
      (complex_gaussian_kernel r m a b)[(i + (m : ℤ)).toNat]? =
        some (Real.exp (-a * ((i : ℝ) * r / (m : ℝ) * ((i : ℝ) * r / (m : ℝ)))) *
                Real.cos (b * ((i : ℝ) * r / (m : ℝ) * ((i : ℝ) * r / (m : ℝ)))),
              Real.exp (-a * ((i : ℝ) * r / (m : ℝ) * ((i : ℝ) * r / (m : ℝ)))) *
                Real.sin (b * ((i : ℝ) * r / (m : ℝ) * ((i : ℝ) * r / (m : ℝ))))) := by
  constructor
  · simp only [complex_gaussian_kernel, List.length_map, List.length_range]
    omega
  · intro i h1 h2
    unfold complex_gaussian_kernel
    rw [List.getElem?_map]
    rw [List.getElem?_range (show (i + (m : ℤ)).toNat < 1 + m * 2 by omega)]
    simp only [Option.map_some']
    congr 1
    have hcast : (((i + (m : ℤ)).toNat : ℤ) - (m : ℤ)) = i := by omega
    rw [hcast]

/-- Concrete instance of claim C5 at `r = 1`, `sampleCount = 2`, `a = 3`,
`b = 4`: the kernel has length 5. -/
theorem complex_gaussian_kernel_contract_witness :
    (complex_gaussian_kernel 1 2 3 4).length = 2 * 2 + 1 :=
  (complex_gaussian_kernel_contract 1 2 3 4 (by norm_num)).1

/-! ### Claim C9: the gamma codec is the identity at gamma = 1 -/

/-- Claim C9: for every channel value `x ∈ [0, 255]`, gamma-encoding with
`gamma = 1` followed by gamma-decoding (which clamps to `[0, 255]`) returns
`x` exactly. -/
theorem gamma_identity (x : ℝ) (h0 : 0 ≤ x) (h255 : x ≤ 255) :
    gammaDecode (gammaEncode x 1) 1 = x := by
  unfold gammaEncode gammaDecode clampR
  rw [Real.rpow_one, show (1 : ℝ) / 1 = 1 by norm_num, Real.rpow_one,
    max_eq_left h0, min_eq_left h255]

/-- Concrete instance of claim C9 at `x = 100`. -/
theorem gamma_identity_witness : gammaDecode (gammaEncode 100 1) 1 = 100 :=
  gamma_identity 100 (by norm_num) (by norm_num)

/-! ### Positional form of the filter specification -/

theorem getD_map_range {α : Type} (N k : ℕ) (g : ℕ → α) (d : α) (hk : k < N) :
    ((List.range N).map g).getD k d = g k := by
  rw [List.getD_eq_getElem?_getD, List.getElem?_map, List.getElem?_range hk]
  rfl

theorem rowcol_div (w j i : ℕ) (hi : i < w) : (j * w + i) / w = j := by
  have hw0 : 0 < w := by omega
  rw [Nat.mul_comm j w, Nat.mul_add_div hw0, Nat.div_eq_of_lt hi, Nat.add_zero]

theorem rowcol_mod (w j i : ℕ) (hi : i < w) : (j * w + i) % w = i := by
  rw [Nat.mul_comm j w, Nat.mul_add_mod, Nat.mod_eq_of_lt hi]

theorem hFilterSpec_length (input : List ComplexPixel) (kernel : List ComplexSample)
    (w h : ℕ) : (hFilterSpec input kernel w h).length = w * h := by
  simp [hFilterSpec]

theorem vFilterSpec_length (input : List ComplexPixel) (kernel : List ComplexSample)
    (w h : ℕ) : (vFilterSpec input kernel w h).length = w * h := by
  simp [vFilterSpec]

theorem hFilterSpec_getD (input : List ComplexPixel) (kernel : List ComplexSample)
    (w h j i : ℕ) (hj : j < h) (hi : i < w) :
    (hFilterSpec input kernel w h).getD (j * w + i) cZeroPix =
      ((List.range kernel.length).map fun (n : ℕ) =>
        let x : ℤ := (i : ℤ) - ((kernel.length / 2 : ℕ) : ℤ) + (n : ℤ)
        if 0 ≤ x ∧ x < (w : ℤ) then
          cmulPix (input.getD (j * w + x.toNat) cZeroPix) (kernel.getD n (0, 0))
        else 0).sum := by
  unfold hFilterSpec
  rw [getD_map_range _ _ _ _ (idx_lt hj hi)]
  simp only [rowcol_div w j i hi, rowcol_mod w j i hi]

theorem vFilterSpec_getD (input : List ComplexPixel) (kernel : List ComplexSample)
    (w h j i : ℕ) (hj : j < h) (hi : i < w) :
    (vFilterSpec input kernel w h).getD (j * w + i) cZeroPix =
      ((List.range kernel.length).map fun (n : ℕ) =>
        let y : ℤ := (j : ℤ) - ((kernel.length / 2 : ℕ) : ℤ) + (n : ℤ)
        if 0 ≤ y ∧ y < (h : ℤ) then
          cmulPix (input.getD (y.toNat * w + i) cZeroPix) (kernel.getD n (0, 0))
        else 0).sum := by
  unfold vFilterSpec
  rw [getD_map_range _ _ _ _ (idx_lt hj hi)]
  simp only [rowcol_div w j i hi, rowcol_mod w j i hi]

theorem sum_apply_pix (l : List ComplexPixel) (c : Fin 4) :
    l.sum c = (l.map fun p => p c).sum := by
  induction l with
  | nil => rfl
  | cons p ps ih =>
    rw [List.sum_cons, List.map_cons, List.sum_cons, ← ih]
    rfl

/-! ### Claim C2: the axis-filter convolution equation -/

/-- Claim C2: for every image of complex pixels of length `w*h` and every
kernel of odd length `2*hw+1`, `horizontal_filter` computes, at every
output position `(i, j)` and channel `c`, the sum over tap indices
`n ∈ [0, 2*hw]` with `0 ≤ i-hw+n < w` of `input[j*w+(i-hw+n)][c] * kernel[n]`,
and `vertical_filter` the analogous column sum; out-of-range taps contribute
nothing (no clamping, mirroring or renormalization), and a full blur pass for
one kernel is `vertical_filter` applied to the result of
`horizontal_filter`. -/
theorem axis_filter_convolution (input : List ComplexPixel) (kernel : List ComplexSample)
    (w h hw : ℕ) (hker : kernel.length = 2 * hw + 1) (hlen : input.length = w * h) :
    horizontal_filter input kernel w h = some (hFilterSpec input kernel w h) ∧
    vertical_filter input kernel w h = some (vFilterSpec input kernel w h) ∧
    ((horizontal_filter input kernel w h).bind fun temp => vertical_filter temp kernel w h) =
      some (vFilterSpec (hFilterSpec input kernel w h) kernel w h) ∧
    (∀ j, j < h → ∀ i, i < w → ∀ c : Fin 4,
      (hFilterSpec input kernel w h).getD (j * w + i) cZeroPix c =
        ((List.range (2 * hw + 1)).map fun (n : ℕ) =>
          if 0 ≤ (i : ℤ) - (hw : ℤ) + (n : ℤ) ∧ (i : ℤ) - (hw : ℤ) + (n : ℤ) < (w : ℤ) then
            cmul (input.getD (j * w + ((i : ℤ) - (hw : ℤ) + (n : ℤ)).toNat) cZeroPix c)
              (kernel.getD n (0, 0))
          else 0).sum) ∧
    (∀ j, j < h → ∀ i, i < w → ∀ c : Fin 4,
      (vFilterSpec input kernel w h).getD (j * w + i) cZeroPix c =
        ((List.range (2 * hw + 1)).map fun (n : ℕ) =>
          if 0 ≤ (j : ℤ) - (hw : ℤ) + (n : ℤ) ∧ (j : ℤ) - (hw : ℤ) + (n : ℤ) < (h : ℤ) then
            cmul (input.getD (((j : ℤ) - (hw : ℤ) + (n : ℤ)).toNat * w + i) cZeroPix c)
              (kernel.getD n (0, 0))
          else 0).sum) := by
  have hhw : kernel.length / 2 = hw := by omega
  refine ⟨horizontal_filter_eq _ _ _ _ hlen, vertical_filter_eq _ _ _ _ hlen, ?_, ?_, ?_⟩
  · rw [horizontal_filter_eq _ _ _ _ hlen]
    show vertical_filter (hFilterSpec input kernel w h) kernel w h = _
    exact vertical_filter_eq _ _ _ _ (hFilterSpec_length _ _ _ _)
  · intro j hj i hi c
    rw [hFilterSpec_getD _ _ _ _ _ _ hj hi, sum_apply_pix, List.map_map, ← hker, hhw]
    apply congrArg
    apply List.map_congr_left
    intro n _
    simp only [Function.comp_def]
    by_cases hc : 0 ≤ (i : ℤ) - (hw : ℤ) + (n : ℤ) ∧ (i : ℤ) - (hw : ℤ) + (n : ℤ) < (w : ℤ)
    · rw [if_pos hc, if_pos hc]
      rfl
    · rw [if_neg hc, if_neg hc]
      rfl
  · intro j hj i hi c
    rw [vFilterSpec_getD _ _ _ _ _ _ hj hi, sum_apply_pix, List.map_map, ← hker, hhw]
    apply congrArg
    apply List.map_congr_left
    intro n _
    simp only [Function.comp_def]
    by_cases hc : 0 ≤ (j : ℤ) - (hw : ℤ) + (n : ℤ) ∧ (j : ℤ) - (hw : ℤ) + (n : ℤ) < (h : ℤ)
    · rw [if_pos hc, if_pos hc]
      rfl
    · rw [if_neg hc, if_neg hc]
      rfl

/-- Concrete instance of claim C2: a 3-tap unit kernel on a 3×2 zero image;
the horizontal filter succeeds and equals the dropped-tap specification. -/
theorem axis_filter_convolution_witness :
    horizontal_filter (List.replicate 6 cZeroPix) (List.replicate 3 ((1 : ℝ), (0 : ℝ))) 3 2 =
      some (hFilterSpec (List.replicate 6 cZeroPix) (List.replicate 3 ((1 : ℝ), (0 : ℝ))) 3 2) :=
  (axis_filter_convolution _ _ 3 2 1 (by simp) (by simp)).1

/-! ### Characterization of the blur core -/

theorem from_slice_length (img : List RealPixel) (γ : ℝ) :
    (from_slice img γ).length = img.length := by
  simp [from_slice]

theorem complex_gaussian_kernels_mem_length (p : KernelParamSet) (r : ℝ) (m : ℕ) :
    ∀ k ∈ complex_gaussian_kernels p r m, k.length = 1 + m * 2 := by
  intro k hk
  unfold complex_gaussian_kernels at hk
  rw [List.mem_map] at hk
  obtain ⟨k0, hk0, rfl⟩ := hk
  rw [List.length_map]
  unfold rawKernels at hk0
  rw [List.mem_map] at hk0
  obtain ⟨i, _, rfl⟩ := hk0
  simp [complex_gaussian_kernel]

theorem ComplexImage_bokeh_blur_eq (pixels : List ComplexPixel) (w h : ℕ)
    (p : KernelParamSet) (r : ℝ) (m : ℕ) (hlen : pixels.length = w * h) :
    ComplexImage.bokeh_blur pixels w h p r m = some (blurCoreSpec pixels w h p r m) := by
  unfold ComplexImage.bokeh_blur blurCoreSpec
  rw [mapM_option_eq _ _ (fun nk =>
      (vFilterSpec (hFilterSpec pixels nk.2 w h) nk.2 w h).map fun pixel => fun c =>
        p.real_component nk.1 * (pixel c).1 + p.imag_component nk.1 * (pixel c).2)
    (fun nk _ => by
      rw [horizontal_filter_eq _ _ _ _ hlen]
      show (vertical_filter (hFilterSpec pixels nk.2 w h) nk.2 w h).map _ = _
      rw [vertical_filter_eq _ _ _ _ (hFilterSpec_length _ _ _ _)]
      rfl)]
  rfl

theorem foldl_zipWith_length (L : List (List RealPixel)) :
    ∀ init : List RealPixel,
      (L.foldl (fun x y => List.zipWith (fun u v => u + v) x y) init).length ≤ init.length := by
  induction L with
  | nil => intro init; simp
  | cons y ys ih =>
    intro init
    rw [List.foldl_cons]
    calc (ys.foldl (fun x y => List.zipWith (fun u v => u + v) x y)
            (List.zipWith (fun u v => u + v) init y)).length
        ≤ (List.zipWith (fun u v => u + v) init y).length := ih _
      _ ≤ init.length := by simp [List.length_zipWith]

theorem foldl_zipWith_length_eq (L : List (List RealPixel)) :
    ∀ init : List RealPixel, (∀ y ∈ L, init.length ≤ y.length) →
      (L.foldl (fun x y => List.zipWith (fun u v => u + v) x y) init).length = init.length := by
  induction L with
  | nil => intro init _; simp
  | cons y ys ih =>
    intro init hall
    rw [List.foldl_cons]
    have hzl : (List.zipWith (fun u v => u + v) init y).length = init.length := by
      have := hall y (List.mem_cons_self y ys)
      simp [List.length_zipWith]
      omega
    rw [ih _ (fun z hz => by rw [hzl]; exact hall z (List.mem_cons_of_mem y hz)), hzl]

theorem blurCoreSpec_length (pixels : List ComplexPixel) (w h : ℕ)
    (p : KernelParamSet) (r : ℝ) (m : ℕ) :
    (blurCoreSpec pixels w h p r m).length = w * h := by
  unfold blurCoreSpec
  rw [foldl_zipWith_length_eq]
  · simp
  · intro y hy
    rw [List.mem_map] at hy
    obtain ⟨nk, _, rfl⟩ := hy
    simp [vFilterSpec_length]

/-! ### Characterization of the write-back folds -/

theorem foldl_set_getElem {α β : Type} (f : β → α) :
    ∀ (bl : List β) (s : ℕ) (img : List α) (q : ℕ),
      ((bl.enumFrom s).foldl (fun acc nr => acc.set nr.1 (f nr.2)) img)[q]? =
        if s ≤ q ∧ q < s + bl.length ∧ q < img.length then (bl[q - s]?).map f
        else img[q]? := by
  intro bl
  induction bl with
  | nil =>
    intro s img q
    rw [List.enumFrom_nil, List.foldl_nil, if_neg (by simp only [List.length_nil]; omega)]
  | cons b bs ih =>
    intro s img q
    rw [List.enumFrom_cons, List.foldl_cons, ih (s + 1) (img.set s (f b)) q]
    by_cases h1 : s + 1 ≤ q ∧ q < s + 1 + bs.length ∧ q < (img.set s (f b)).length
    · rw [if_pos h1]
      rw [List.length_set] at h1
      rw [if_pos (by simp only [List.length_cons]; omega)]
      rw [show q - s = (q - (s + 1)) + 1 by omega]
      simp
    · rw [if_neg h1]
      rw [List.length_set] at h1
      by_cases h2 : q = s
      · subst h2
        by_cases h3 : q < img.length
        · rw [if_pos (by simp only [List.length_cons]; omega)]
          rw [List.getElem?_set_self', List.getElem?_eq_getElem h3]
          simp
        · rw [if_neg (by simp only [List.length_cons]; omega)]
          rw [List.getElem?_eq_none (by simpa using (by omega : img.length ≤ q)),
            List.getElem?_eq_none (by omega : img.length ≤ q)]
      · rw [List.getElem?_set_ne (by omega)]
        rw [if_neg (by simp only [List.length_cons]; omega)]

theorem foldl_maskset_getElem {α β : Type} (f : β → α) :
    ∀ (bl : List β) (mask : List Bool) (s : ℕ) (img : List α) (q : ℕ),
      (((bl.enumFrom s).zip mask).foldl
        (fun acc nrb => if nrb.2 then acc.set nrb.1.1 (f nrb.1.2) else acc) img)[q]? =
      if s ≤ q ∧ q < s + min bl.length mask.length ∧ q < img.length ∧
          mask.getD (q - s) false = true then
        (bl[q - s]?).map f
      else img[q]? := by
  intro bl
  induction bl with
  | nil =>
    intro mask s img q
    rw [List.enumFrom_nil, List.zip_nil_left, List.foldl_nil,
      if_neg (by simp only [List.length_nil]; omega)]
  | cons b bs ih =>
    intro mask s img q
    cases mask with
    | nil =>
      rw [List.zip_nil_right, List.foldl_nil, if_neg (by simp only [List.length_nil]; omega)]
    | cons mb ms =>
      rw [List.enumFrom_cons]
      rw [show ((s, b) :: bs.enumFrom (s + 1)).zip (mb :: ms) =
        ((s, b), mb) :: (bs.enumFrom (s + 1)).zip ms from rfl]
      rw [List.foldl_cons]
      cases mb with
      | false =>
        simp only [Bool.false_eq_true, if_false]
        rw [ih ms (s + 1) img q]
        by_cases h1 : s + 1 ≤ q ∧ q < s + 1 + min bs.length ms.length ∧ q < img.length ∧
            ms.getD (q - (s + 1)) false = true
        · rw [if_pos h1]
          rw [if_pos (by
            constructor
            · omega
            constructor
            · simp only [List.length_cons]
              omega
            constructor
            · omega
            · rw [show q - s = (q - (s + 1)) + 1 by omega, List.getD_cons_succ]
              exact h1.2.2.2)]
          rw [show q - s = (q - (s + 1)) + 1 by omega]
          simp
        · rw [if_neg h1]
          rw [if_neg (by
            intro hcon
            apply h1
            have hqs : q ≠ s := by
              intro hqe
              rw [hqe] at hcon
              simp at hcon
            have hgd := hcon.2.2.2
            rw [show q - s = (q - (s + 1)) + 1 by omega, List.getD_cons_succ] at hgd
            refine ⟨by omega, ?_, hcon.2.2.1, hgd⟩
            have := hcon.2.1
            simp only [List.length_cons] at this
            omega)]
      | true =>
        simp only [if_true]
        rw [ih ms (s + 1) (img.set s (f b)) q]
        by_cases h1 : s + 1 ≤ q ∧ q < s + 1 + min bs.length ms.length ∧
            q < (img.set s (f b)).length ∧ ms.getD (q - (s + 1)) false = true
        · rw [if_pos h1]
          rw [List.length_set] at h1
          rw [if_pos (by
            constructor
            · omega
            constructor
            · simp only [List.length_cons]
              omega
            constructor
            · omega
            · rw [show q - s = (q - (s + 1)) + 1 by omega, List.getD_cons_succ]
              exact h1.2.2.2)]
          rw [show q - s = (q - (s + 1)) + 1 by omega]
          simp
        · rw [if_neg h1]
          rw [List.length_set] at h1
          by_cases h2 : q = s
          · subst h2
            by_cases h3 : q < img.length
            · rw [if_pos (by
                refine ⟨by omega, by simp only [List.length_cons]; omega, h3, by simp⟩)]
              rw [List.getElem?_set_self', List.getElem?_eq_getElem h3]
              simp
            · rw [if_neg (by
                intro hcon
                exact h3 hcon.2.2.1)]
              rw [List.getElem?_eq_none (by simpa using (by omega : img.length ≤ q)),
                List.getElem?_eq_none (by omega : img.length ≤ q)]
          · rw [List.getElem?_set_ne (by omega)]
            rw [if_neg (by
              intro hcon
              apply h1
              have hgd := hcon.2.2.2
              rw [show q - s = (q - (s + 1)) + 1 by omega, List.getD_cons_succ] at hgd
              refine ⟨by omega, ?_, hcon.2.2.1, hgd⟩
              have := hcon.2.1
              simp only [List.length_cons] at this
              omega)]

theorem writeback_getElem {α β : Type} (f : β → α) (bl : List β) (img : List α) (q : ℕ) :
    (bl.enum.foldl (fun acc nr => acc.set nr.1 (f nr.2)) img)[q]? =
      if q < bl.length ∧ q < img.length then (bl[q]?).map f else img[q]? := by
  rw [show bl.enum = bl.enumFrom 0 from rfl, foldl_set_getElem f bl 0 img q]
  by_cases hq : q < bl.length ∧ q < img.length
  · rw [if_pos (by omega), if_pos hq, Nat.sub_zero]
  · rw [if_neg (by omega), if_neg hq]

theorem writeback_mask_getElem {α β : Type} (f : β → α) (bl : List β) (mask : List Bool)
    (img : List α) (q : ℕ) :
    ((bl.enum.zip mask).foldl
        (fun acc nrb => if nrb.2 then acc.set nrb.1.1 (f nrb.1.2) else acc) img)[q]? =
      if q < min bl.length mask.length ∧ q < img.length ∧ mask.getD q false = true then
        (bl[q]?).map f
      else img[q]? := by
  rw [show bl.enum = bl.enumFrom 0 from rfl, foldl_maskset_getElem f bl mask 0 img q]
  by_cases hq : q < min bl.length mask.length ∧ q < img.length ∧ mask.getD q false = true
  · rw [if_pos (by refine ⟨by omega, by omega, hq.2.1, by rw [Nat.sub_zero]; exact hq.2.2⟩),
      if_pos hq, Nat.sub_zero]
  · rw [if_neg (by
      intro hcon
      apply hq
      rw [Nat.sub_zero] at hcon
      exact ⟨by omega, hcon.2.2⟩), if_neg hq]

theorem bokeh_blur_eq (img : List RealPixel) (w h : ℕ) (r : ℝ) (m : ℕ) (γ : ℝ)
    (p : KernelParamSet) (hlen : img.length = w * h) :
    bokeh_blur img w h r m γ p =
      some ((blurCoreSpec (from_slice img γ) w h p r m).enum.foldl
        (fun acc nr => acc.set nr.1 (decodePix nr.2 γ)) img) := by
  unfold bokeh_blur
  rw [ComplexImage_bokeh_blur_eq _ _ _ _ _ _ (by rw [from_slice_length]; exact hlen)]
  rfl

theorem bokeh_blur_with_mask_eq (img : List RealPixel) (mask : List Bool) (w h : ℕ) (r : ℝ)
    (m : ℕ) (γ : ℝ) (p : KernelParamSet) (hlen : img.length = w * h) :
    bokeh_blur_with_mask img mask w h r m γ p =
      some (((blurCoreSpec (from_slice img γ) w h p r m).enum.zip mask).foldl
        (fun acc nrb => if nrb.2 then acc.set nrb.1.1 (decodePix nrb.1.2 γ) else acc) img) := by
  unfold bokeh_blur_with_mask
  rw [ComplexImage_bokeh_blur_eq _ _ _ _ _ _ (by rw [from_slice_length]; exact hlen)]
  rfl

theorem writeback_getElem_decode (γ : ℝ) (bl : List RealPixel) (img : List RealPixel)
    (q : ℕ) :
    (bl.enum.foldl (fun acc nr => acc.set nr.1 (decodePix nr.2 γ)) img)[q]? =
      if q < bl.length ∧ q < img.length then (bl[q]?).map (fun v => decodePix v γ)
      else img[q]? :=
  writeback_getElem (fun v => decodePix v γ) bl img q

theorem writeback_mask_getElem_decode (γ : ℝ) (bl : List RealPixel) (mask : List Bool)
    (img : List RealPixel) (q : ℕ) :
    ((bl.enum.zip mask).foldl
        (fun acc nrb => if nrb.2 then acc.set nrb.1.1 (decodePix nrb.1.2 γ) else acc) img)[q]? =
      if q < min bl.length mask.length ∧ q < img.length ∧ mask.getD q false = true then
        (bl[q]?).map (fun v => decodePix v γ)
      else img[q]? :=
  writeback_mask_getElem (fun v => decodePix v γ) bl mask img q

/-! ### Claim C10: in-bounds safety of the convolution engine -/

/-- Claim C10: under the preconditions `pixels.len = width*height`,
`sampleCount ≥ 1`, `width ≥ 2*sampleCount+1` and `height ≥ 2*sampleCount+1`,
every buffer access inside the blur call is in bounds: the out-of-range
(`none`) branch of the embedding is unreachable and the whole call is total
(returns `some`, the model of "no panic"). -/
theorem blur_in_bounds_total (img : List RealPixel) (w h : ℕ) (r : ℝ) (m : ℕ) (γ : ℝ)
    (p : KernelParamSet) (hlen : img.length = w * h) (hm : 1 ≤ m)
    (hw : 2 * m + 1 ≤ w) (hh : 2 * m + 1 ≤ h) :
    (bokeh_blur img w h r m γ p).isSome := by
  rw [bokeh_blur_eq img w h r m γ p hlen]
  rfl

/-- Concrete instance of claim C10: a 3×3 zero image with the 1-component
preset, radius 1, sampleCount 1 blurs without reaching the panic branch. -/
theorem blur_in_bounds_total_witness :
    (bokeh_blur (List.replicate 9 (constRPix 0)) 3 3 1 1 1 KERNEL1_PARAM_SET).isSome :=
  blur_in_bounds_total (List.replicate 9 (constRPix 0)) 3 3 1 1 1 KERNEL1_PARAM_SET
    (by simp) (by norm_num) (by norm_num) (by norm_num)

/-! ### Claim C3: the mask complement law -/

/-- Claim C3: with a mask of the same length as the pixel count, after
`bokeh_blur_with_mask` every position with `mask[p] = true` holds exactly the
value `bokeh_blur` (same arguments, no mask) produces at `p`, and every
position with `mask[p] = false` retains exactly its pre-call value. -/
theorem mask_complement_law (img : List RealPixel) (mask : List Bool) (w h : ℕ) (r : ℝ)
    (m : ℕ) (γ : ℝ) (p : KernelParamSet) (hlen : img.length = w * h)
    (hmask : mask.length = img.length) :
    ∃ out outM, bokeh_blur img w h r m γ p = some out ∧
      bokeh_blur_with_mask img mask w h r m γ p = some outM ∧
      ∀ q, q < img.length →
        (mask.getD q false = true → outM[q]? = out[q]?) ∧
        (mask.getD q false = false → outM[q]? = img[q]?) := by
  rw [bokeh_blur_eq img w h r m γ p hlen, bokeh_blur_with_mask_eq img mask w h r m γ p hlen]
  refine ⟨_, _, rfl, rfl, ?_⟩
  intro q hq
  have hbl : (blurCoreSpec (from_slice img γ) w h p r m).length = w * h :=
    blurCoreSpec_length _ _ _ _ _ _
  constructor
  · intro hmq
    rw [writeback_mask_getElem_decode, writeback_getElem_decode]
    rw [if_pos ⟨by omega, by omega, hmq⟩, if_pos ⟨by omega, by omega⟩]
  · intro hmq
    rw [writeback_mask_getElem_decode]
    rw [if_neg (by
      intro hcon
      rw [hmq] at hcon
      simp at hcon)]

/-- Concrete instance of claim C3: 3×3 zero image, alternating mask,
1-component preset. -/
theorem mask_complement_law_witness :
    ∃ out outM,
      bokeh_blur (List.replicate 9 (constRPix 0)) 3 3 1 1 1 KERNEL1_PARAM_SET = some out ∧
      bokeh_blur_with_mask (List.replicate 9 (constRPix 0))
        [false, true, false, true, false, true, false, true, false] 3 3 1 1 1
        KERNEL1_PARAM_SET = some outM ∧
      ∀ q, q < (List.replicate 9 (constRPix 0)).length →
        ([false, true, false, true, false, true, false, true, false].getD q false = true →
          outM[q]? = out[q]?) ∧
        ([false, true, false, true, false, true, false, true, false].getD q false = false →
          outM[q]? = (List.replicate 9 (constRPix 0))[q]?) :=
  mask_complement_law (List.replicate 9 (constRPix 0))
    [false, true, false, true, false, true, false, true, false] 3 3 1 1 1
    KERNEL1_PARAM_SET (by simp) (by simp)

/-! ### Claim C7: mask length mismatch -/

/-- Claim C7, corrected: `bokeh_blur_with_mask` performs no length check.
The mask is zipped against the enumerated blurred pixels and truncated to
the shorter of the two; the call completes normally (`some`), and every
pixel at an index at or beyond the mask's length keeps its pre-call
value. -/
theorem mask_length_mismatch_truncates (img : List RealPixel) (mask : List Bool)
    (w h : ℕ) (r : ℝ) (m : ℕ) (γ : ℝ) (p : KernelParamSet)
    (hlen : img.length = w * h) :
    ∃ outM, bokeh_blur_with_mask img mask w h r m γ p = some outM ∧
      ∀ q, mask.length ≤ q → outM[q]? = img[q]? := by
  rw [bokeh_blur_with_mask_eq img mask w h r m γ p hlen]
  refine ⟨_, rfl, ?_⟩
  intro q hq
  rw [writeback_mask_getElem_decode]
  rw [if_neg (by intro hcon; omega)]

/-- Claim C7 counterexample: a call with mask length 0 on a 1-pixel image
(pixel count 1 ≠ 0) completes normally and returns the original buffer —
there is no length-mismatch failure. -/
theorem mask_length_mismatch_counterexample :
    bokeh_blur_with_mask [constRPix 5] [] 1 1 1 1 1 KERNEL1_PARAM_SET =
      some [constRPix 5] := by
  rw [bokeh_blur_with_mask_eq [constRPix 5] [] 1 1 1 1 1 KERNEL1_PARAM_SET (by simp)]
  rw [List.zip_nil_right, List.foldl_nil]

/-- Concrete instance of the amended claim C7. -/
theorem mask_length_mismatch_truncates_witness :
    ∃ outM, bokeh_blur_with_mask [constRPix 5, constRPix 6] [true] 1 2 1 1 1
        KERNEL1_PARAM_SET = some outM ∧
      ∀ q, ([true] : List Bool).length ≤ q →
        outM[q]? = ([constRPix 5, constRPix 6] : List RealPixel)[q]? :=
  mask_length_mismatch_truncates [constRPix 5, constRPix 6] [true] 1 2 1 1 1
    KERNEL1_PARAM_SET (by simp)

/-! ### Claim C8: empty parameter table -/

theorem blurCore_empty (pixels : List ComplexPixel) (w h : ℕ) (r : ℝ) (m : ℕ) :
    ComplexImage.bokeh_blur pixels w h ⟨[]⟩ r m =
      some (List.replicate (w * h) rZeroPix) := by
  simp only [ComplexImage.bokeh_blur, complex_gaussian_kernels, rawKernels,
    KernelParamSet.num_kernels, List.length_nil, Nat.zero_div, List.range_zero,
    List.map_nil, List.enum_nil]
  rfl

theorem decodePix_zero (γ : ℝ) (hγ : γ ≠ 0) : decodePix rZeroPix γ = rZeroPix := by
  funext c
  unfold decodePix gammaDecode clampR rZeroPix
  rw [Real.zero_rpow (one_div_ne_zero hγ)]
  norm_num

theorem bokeh_blur_empty_eq (img : List RealPixel) (w h : ℕ) (r : ℝ) (m : ℕ) (γ : ℝ)
    (hγ : γ ≠ 0) (hlen : img.length = w * h) :
    bokeh_blur img w h r m γ ⟨[]⟩ = some (List.replicate (w * h) rZeroPix) := by
  unfold bokeh_blur
  rw [blurCore_empty]
  simp only [Option.map_some']
  congr 1
  apply List.ext_getElem?
  intro q
  rw [writeback_getElem_decode]
  by_cases hq : q < w * h
  · rw [if_pos ⟨by simpa using hq, by omega⟩]
    rw [show (List.replicate (w * h) rZeroPix)[q]? = some rZeroPix by
      simp [List.getElem?_replicate, hq]]
    simp only [Option.map_some']
    rw [decodePix_zero γ hγ]
  · rw [if_neg (by
      intro hcon
      exact hq (by simpa using hcon.1))]
    rw [List.getElem?_eq_none (by omega), List.getElem?_eq_none (by simp; omega)]

/-- Claim C8, corrected: with an empty parameter table, `bokeh_blur` raises
no error at all: the component reduction is empty, so the blurred image is
identically zero, and for `gamma > 0` the write-back loop overwrites every
pixel of the buffer with `clamp(0^(1/gamma)) = 0` — the buffer IS modified
and no `ConfigurationError` exists in the code.  (`gamma > 0` is the domain
on which the real model of `powf` at base 0 is faithful: for `gamma < 0`
the `f64` code writes `clamp(+inf) = 255` instead — still no error and the
buffer still modified — and at `gamma = 0` it writes `powf(0, +inf) = 0`.) -/
theorem empty_table_no_error (img : List RealPixel) (w h : ℕ) (r : ℝ) (m : ℕ) (γ : ℝ)
    (hγ : 0 < γ) (hlen : img.length = w * h) :
    bokeh_blur img w h r m γ ⟨[]⟩ = some (List.replicate (w * h) rZeroPix) :=
  bokeh_blur_empty_eq img w h r m γ (ne_of_gt hγ) hlen

/-- Claim C8 counterexample: blurring a 1×1 buffer holding 5 with the empty
table succeeds (no error is surfaced) and SETS the buffer to 0 — the pixel
buffer is modified, contradicting the claimed fatal `ConfigurationError`
with unmodified buffer. -/
theorem empty_table_counterexample :
    bokeh_blur [constRPix 5] 1 1 1 1 1 ⟨[]⟩ = some [rZeroPix] ∧
      ([rZeroPix] : List RealPixel) ≠ [constRPix 5] := by
  constructor
  · have h := bokeh_blur_empty_eq [constRPix 5] 1 1 1 1 1 (by norm_num) (by simp)
    simpa using h
  · intro hcon
    have h1 : rZeroPix = constRPix 5 := by
      have := congrArg (fun l => l.getD 0 (constRPix 1)) hcon
      simpa using this
    have h2 := congrFun h1 0
    simp [rZeroPix, constRPix] at h2

/-- Concrete instance of the amended claim C8 at `γ = 2`. -/
theorem empty_table_no_error_witness :
    bokeh_blur [constRPix 5] 1 1 1 1 2 ⟨[]⟩ = some (List.replicate (1 * 1) rZeroPix) :=
  empty_table_no_error [constRPix 5] 1 1 1 1 2 (by norm_num) (by simp)

/-! ### Claim C1: normalization makes the family energy 1 -/

theorem sum_map_div {α : Type} (l : List α) (f : α → ℝ) (d : ℝ) :
    (l.map fun x => f x / d).sum = (l.map f).sum / d := by
  induction l with
  | nil => simp
  | cons x xs ih => simp [ih, add_div]

theorem foldl_add_eq_sum {α : Type} (l : List α) (f : α → ℝ) :
    ∀ b : ℝ, l.foldl (fun acc x => acc + f x) b = b + (l.map f).sum := by
  induction l with
  | nil => intro b; simp
  | cons x xs ih => intro b; rw [List.foldl_cons, ih (b + f x)]; simp [add_assoc]

theorem familyEnergy_eq_sum (p : KernelParamSet) (ks : List (List ComplexSample)) :
    familyEnergy p ks = (ks.enum.map fun nk => kernelPairSum p nk.1 nk.2).sum := by
  unfold familyEnergy
  have h := foldl_add_eq_sum ks.enum (fun nk => kernelPairSum p nk.1 nk.2) 0
  simpa using h

theorem kernelPairSum_div (p : KernelParamSet) (n : ℕ) (k : List ComplexSample) (c : ℝ) :
    kernelPairSum p n (k.map fun e => (e.1 / c, e.2 / c)) =
      kernelPairSum p n k / (c * c) := by
  unfold kernelPairSum
  rw [List.map_map, ← sum_map_div]
  congr 1
  apply List.map_congr_left
  intro i _
  simp only [Function.comp_def]
  rw [List.map_map, ← sum_map_div]
  congr 1
  apply List.map_congr_left
  intro j _
  simp only [Function.comp_def]
  rw [div_mul_div_comm, div_mul_div_comm, div_mul_div_comm, div_mul_div_comm,
    div_sub_div_same, div_add_div_same, ← mul_div_assoc, ← mul_div_assoc,
    div_add_div_same]

theorem familyEnergy_div (p : KernelParamSet) (ks : List (List ComplexSample)) (c : ℝ) :
    familyEnergy p (ks.map fun k => k.map fun e => (e.1 / c, e.2 / c)) =
      familyEnergy p ks / (c * c) := by
  rw [familyEnergy_eq_sum, familyEnergy_eq_sum, List.enum_map, List.map_map, ← sum_map_div]
  congr 1
  apply List.map_congr_left
  intro nk _
  simp only [Function.comp_def, Prod.map]
  exact kernelPairSum_div p nk.1 nk.2 c

theorem familyEnergy_normalized (p : KernelParamSet) (r : ℝ) (m : ℕ)
    (hS : 0 < familyEnergy p (rawKernels p r m)) :
    familyEnergy p (complex_gaussian_kernels p r m) = 1 := by
  have hsc : familyEnergy p (complex_gaussian_kernels p r m) =
      familyEnergy p (rawKernels p r m) /
        (Real.sqrt (familyEnergy p (rawKernels p r m)) *
          Real.sqrt (familyEnergy p (rawKernels p r m))) := by
    unfold complex_gaussian_kernels
    exact familyEnergy_div p (rawKernels p r m) (Real.sqrt (familyEnergy p (rawKernels p r m)))
  rw [hsc, Real.mul_self_sqrt (le_of_lt hS), div_self (ne_of_gt hS)]

/-- Claim C1, amended: for every parameter table, radius and sampleCount
whose pre-normalization family energy `S` is positive, recomputing the
family energy on the kernels produced by `complex_gaussian_kernels` (each
sample divided by `sqrt S`) yields exactly 1 — in particular within `1e-9`
absolute tolerance.  The positivity condition cannot be dropped: the
shipped 1-component preset violates it at some radii (see
`kernel_normalization_counterexample`), where the source divides by
`sqrt(S < 0) = NaN` and the postcondition fails. -/
theorem kernel_normalization (p : KernelParamSet) (r : ℝ) (m : ℕ) (hm : 1 ≤ m)
    (hS : 0 < familyEnergy p (rawKernels p r m)) :
    |familyEnergy p (complex_gaussian_kernels p r m) - 1| ≤ 1e-9 := by
  rw [familyEnergy_normalized p r m hS]
  norm_num

theorem rawKernels_K1_r0 :
    rawKernels KERNEL1_PARAM_SET 0 1 =
      [[((1 : ℝ), (0 : ℝ)), (1, 0), (1, 0)]] := by
  unfold rawKernels KernelParamSet.num_kernels KERNEL1_PARAM_SET KERNEL1_PARAMS
    KernelParamSet.a KernelParamSet.b complex_gaussian_kernel
  rw [show (List.range ([(0.862325 : ℝ), 1.624835, 0.767583, 1.862321].length / 4)) = [0]
    from rfl]
  rw [show (List.range (1 + 1 * 2)) = [0, 1, 2] from rfl]
  simp [mul_zero, zero_div, Real.exp_zero, Real.cos_zero, Real.sin_zero]

theorem S0_pos_K1 :
    0 < familyEnergy KERNEL1_PARAM_SET (rawKernels KERNEL1_PARAM_SET 0 1) := by
  rw [rawKernels_K1_r0, familyEnergy_eq_sum]
  norm_num [List.enum, List.enumFrom, kernelPairSum, KernelParamSet.real_component,
    KernelParamSet.imag_component, KERNEL1_PARAM_SET, KERNEL1_PARAMS]

/-- Concrete instance of claim C1: the 1-component preset at `r = 0`,
`sampleCount = 1` has positive unnormalized energy, and the normalized
energy is 1 within `1e-9`. -/
theorem kernel_normalization_witness :
    0 < familyEnergy KERNEL1_PARAM_SET (rawKernels KERNEL1_PARAM_SET 0 1) ∧
    |familyEnergy KERNEL1_PARAM_SET (complex_gaussian_kernels KERNEL1_PARAM_SET 0 1) - 1|
      ≤ 1e-9 :=
  ⟨S0_pos_K1, kernel_normalization KERNEL1_PARAM_SET 0 1 (by norm_num) S0_pos_K1⟩

/-! ### Complex algebra for the flat-image property (claim C4) -/

theorem cmul_add (a k1 k2 : ComplexSample) : cmul a (k1 + k2) = cmul a k1 + cmul a k2 := by
  unfold cmul
  rw [Prod.mk_add_mk]
  rw [Prod.mk.injEq]
  constructor <;> (simp only [Prod.fst_add, Prod.snd_add]; ring)

theorem cmul_zero (a : ComplexSample) : cmul a 0 = 0 := by
  unfold cmul
  rw [show ((0 : ComplexSample)).1 = 0 from rfl, show ((0 : ComplexSample)).2 = 0 from rfl]
  norm_num

theorem cmul_cmul (a s k : ComplexSample) : cmul (cmul a s) k = cmul a (cmul s k) := by
  unfold cmul
  rw [Prod.mk.injEq]
  constructor <;> (simp only; ring)

theorem cmulPix_addk (p : ComplexPixel) (k1 k2 : ComplexSample) :
    cmulPix p (k1 + k2) = cmulPix p k1 + cmulPix p k2 := by
  funext c
  show cmul (p c) (k1 + k2) = cmul (p c) k1 + cmul (p c) k2
  exact cmul_add _ _ _

theorem cmulPix_zerok (p : ComplexPixel) : cmulPix p 0 = 0 := by
  funext c
  show cmul (p c) 0 = 0
  exact cmul_zero _

theorem cmulPix_cmulPix (p : ComplexPixel) (s k : ComplexSample) :
    cmulPix (cmulPix p s) k = cmulPix p (cmul s k) := by
  funext c
  exact cmul_cmul _ _ _

theorem sum_cmulPix (p : ComplexPixel) (l : List ComplexSample) :
    (l.map fun k => cmulPix p k).sum = cmulPix p l.sum := by
  induction l with
  | nil => rw [List.map_nil, List.sum_nil, List.sum_nil, cmulPix_zerok]
  | cons k ks ih => rw [List.map_cons, List.sum_cons, List.sum_cons, cmulPix_addk, ih]

theorem cZeroPix_cmulPix (k : ComplexSample) : cmulPix cZeroPix k = cZeroPix := by
  funext c
  show cmul (0, 0) k = (0, 0)
  unfold cmul
  norm_num

theorem sum_map_add {α : Type} (l : List α) (f g : α → ℝ) :
    (l.map fun x => f x + g x).sum = (l.map f).sum + (l.map g).sum := by
  induction l with
  | nil => simp
  | cons x xs ih => simp [ih]; ring

theorem sum_fst (l : List ComplexSample) : l.sum.1 = (l.map Prod.fst).sum := by
  induction l with
  | nil => rfl
  | cons x xs ih => simp [ih]

theorem sum_snd (l : List ComplexSample) : l.sum.2 = (l.map Prod.snd).sum := by
  induction l with
  | nil => rfl
  | cons x xs ih => simp [ih]

theorem kernelPairSum_eq_sigma (p : KernelParamSet) (n : ℕ) (k : List ComplexSample) :
    kernelPairSum p n k =
      p.real_component n * (cmul k.sum k.sum).1 + p.imag_component n * (cmul k.sum k.sum).2 := by
  unfold kernelPairSum
  have hinner : ∀ i : ComplexSample,
      (k.map fun j => p.real_component n * (i.1 * j.1 - i.2 * j.2) +
        p.imag_component n * (i.1 * j.2 + i.2 * j.1)).sum =
      (p.real_component n * i.1 + p.imag_component n * i.2) * (k.map Prod.fst).sum +
        (p.imag_component n * i.1 - p.real_component n * i.2) * (k.map Prod.snd).sum := by
    intro i
    rw [show (fun j : ComplexSample => p.real_component n * (i.1 * j.1 - i.2 * j.2) +
        p.imag_component n * (i.1 * j.2 + i.2 * j.1)) =
      (fun j : ComplexSample =>
        (p.real_component n * i.1 + p.imag_component n * i.2) * j.1 +
        (p.imag_component n * i.1 - p.real_component n * i.2) * j.2) from by
      funext j
      ring]
    rw [sum_map_add]
    rw [show (fun j : ComplexSample =>
        (p.real_component n * i.1 + p.imag_component n * i.2) * j.1) =
      (fun j : ComplexSample =>
        (p.real_component n * i.1 + p.imag_component n * i.2) * Prod.fst j) from rfl]
    rw [show (fun j : ComplexSample =>
        (p.imag_component n * i.1 - p.real_component n * i.2) * j.2) =
      (fun j : ComplexSample =>
        (p.imag_component n * i.1 - p.real_component n * i.2) * Prod.snd j) from rfl]
    rw [List.sum_map_mul_left, List.sum_map_mul_left]
  rw [List.map_congr_left (fun i _ => hinner i)]
  rw [sum_map_add]
  rw [show (fun i : ComplexSample =>
      (p.real_component n * i.1 + p.imag_component n * i.2) * (k.map Prod.fst).sum) =
    (fun i : ComplexSample =>
      (p.real_component n * Prod.fst i + p.imag_component n * Prod.snd i) *
        (k.map Prod.fst).sum) from rfl]
  rw [show (fun i : ComplexSample =>
      (p.imag_component n * i.1 - p.real_component n * i.2) * (k.map Prod.snd).sum) =
    (fun i : ComplexSample =>
      (p.imag_component n * Prod.fst i - p.real_component n * Prod.snd i) *
        (k.map Prod.snd).sum) from rfl]
  rw [List.sum_map_mul_right, List.sum_map_mul_right]
  rw [show (fun i : ComplexSample =>
      p.real_component n * Prod.fst i + p.imag_component n * Prod.snd i) =
    (fun i : ComplexSample =>
      p.real_component n * Prod.fst i + p.imag_component n * Prod.snd i) from rfl]
  rw [sum_map_add]
  rw [show (fun x : ComplexSample => p.imag_component n * Prod.fst x -
      p.real_component n * Prod.snd x) =
    (fun x : ComplexSample => p.imag_component n * Prod.fst x +
      (-(p.real_component n)) * Prod.snd x) from by funext x; ring]
  rw [sum_map_add]
  rw [show (fun x : ComplexSample => p.real_component n * Prod.fst x) =
    (fun x : ComplexSample => p.real_component n * Prod.fst x) from rfl]
  rw [List.sum_map_mul_left, List.sum_map_mul_left, List.sum_map_mul_left,
    List.sum_map_mul_left]
  unfold cmul
  rw [sum_fst, sum_snd]
  ring

/-! ### Filter evaluation on constant images -/

theorem getD_replicate_of_lt {α : Type} (n q : ℕ) (a d : α) (hq : q < n) :
    (List.replicate n a).getD q d = a := by
  rw [List.getD_eq_getElem?_getD]
  simp [List.getElem?_replicate, hq]

theorem map_getD_range_self {α : Type} (l : List α) (d : α) :
    (List.range l.length).map (fun n => l.getD n d) = l := by
  apply List.ext_getElem?
  intro q
  rw [List.getElem?_map]
  by_cases hq : q < l.length
  · rw [List.getElem?_range hq, getElem?_eq_some_getD l q d hq]
    rfl
  · rw [List.getElem?_eq_none (le_of_not_lt (by simpa using hq)),
      List.getElem?_eq_none (le_of_not_lt hq)]
    rfl

theorem sum_range_cmulPix (B : ComplexPixel) (kernel : List ComplexSample) :
    ((List.range kernel.length).map fun n => cmulPix B (kernel.getD n (0, 0))).sum =
      cmulPix B kernel.sum := by
  rw [show (List.range kernel.length).map (fun n => cmulPix B (kernel.getD n (0, 0))) =
      ((List.range kernel.length).map (fun n => kernel.getD n (0, 0))).map
        (fun k => cmulPix B k) from
    (List.map_map (fun k => cmulPix B k) (fun n => kernel.getD n (0, 0))
      (List.range kernel.length)).symm]
  rw [map_getD_range_self, sum_cmulPix]

theorem hFilterSpec_flat (xe : ℝ) (kernel : List ComplexSample) (w h j i : ℕ)
    (hj : j < h) (hi2 : kernel.length / 2 ≤ i) (hi3 : i + kernel.length / 2 < w) :
    (hFilterSpec (List.replicate (w * h) (fun _ => ((xe : ℝ), (0 : ℝ)))) kernel w h).getD
        (j * w + i) cZeroPix =
      cmulPix (fun _ => (xe, 0)) kernel.sum := by
  rw [hFilterSpec_getD _ _ _ _ _ _ hj (by omega)]
  rw [List.map_congr_left (g := fun n =>
      cmulPix (fun _ => ((xe : ℝ), (0 : ℝ))) (kernel.getD n (0, 0))) (fun n hn => by
    rw [List.mem_range] at hn
    simp only
    rw [if_pos (show (0 : ℤ) ≤ (i : ℤ) - ((kernel.length / 2 : ℕ) : ℤ) + (n : ℤ) ∧
        (i : ℤ) - ((kernel.length / 2 : ℕ) : ℤ) + (n : ℤ) < (w : ℤ) from by
      constructor <;> omega)]
    rw [getD_replicate_of_lt _ _ _ _ (by
      apply idx_lt hj
      omega)])]
  exact sum_range_cmulPix _ _

theorem vFilterSpec_flat (xe : ℝ) (kernel : List ComplexSample) (w h j i : ℕ)
    (hj2 : kernel.length / 2 ≤ j) (hj3 : j + kernel.length / 2 < h)
    (hi2 : kernel.length / 2 ≤ i) (hi3 : i + kernel.length / 2 < w) :
    (vFilterSpec (hFilterSpec (List.replicate (w * h) (fun _ => ((xe : ℝ), (0 : ℝ))))
        kernel w h) kernel w h).getD (j * w + i) cZeroPix =
      cmulPix (fun _ => (xe, 0)) (cmul kernel.sum kernel.sum) := by
  rw [vFilterSpec_getD _ _ _ _ _ _ (by omega) (by omega)]
  rw [List.map_congr_left (g := fun n =>
      cmulPix (cmulPix (fun _ => ((xe : ℝ), (0 : ℝ))) kernel.sum)
        (kernel.getD n (0, 0))) (fun n hn => by
    rw [List.mem_range] at hn
    simp only
    rw [if_pos (show (0 : ℤ) ≤ (j : ℤ) - ((kernel.length / 2 : ℕ) : ℤ) + (n : ℤ) ∧
        (j : ℤ) - ((kernel.length / 2 : ℕ) : ℤ) + (n : ℤ) < (h : ℤ) from by
      constructor <;> omega)]
    rw [hFilterSpec_flat xe kernel w h
      (((j : ℤ) - ((kernel.length / 2 : ℕ) : ℤ) + (n : ℤ)).toNat) i (by omega) hi2 hi3])]
  rw [sum_range_cmulPix, cmulPix_cmulPix]

/-! ### Pointwise value of the component reduction -/

theorem getD_map_of_lt {α β : Type} (l : List α) (f : α → β) (q : ℕ) (d : β) (d0 : α)
    (h : q < l.length) : (l.map f).getD q d = f (l.getD q d0) := by
  rw [List.getD_eq_getElem?_getD, List.getElem?_map, getElem?_eq_some_getD l q d0 h]
  rfl

theorem sum_apply_rpix (l : List RealPixel) (c : Fin 4) :
    l.sum c = (l.map fun p => p c).sum := by
  induction l with
  | nil => rfl
  | cons p ps ih =>
    rw [List.sum_cons, List.map_cons, List.sum_cons, ← ih]
    rfl

theorem foldl_zipWith_getD (L : List (List RealPixel)) :
    ∀ (init : List RealPixel) (q : ℕ), q < init.length → (∀ y ∈ L, init.length ≤ y.length) →
      (L.foldl (fun x y => List.zipWith (fun u v => u + v) x y) init).getD q rZeroPix =
        init.getD q rZeroPix + (L.map fun y => y.getD q rZeroPix).sum := by
  induction L with
  | nil => intro init q hq _; simp
  | cons y ys ih =>
    intro init q hq hall
    rw [List.foldl_cons]
    have hyl : init.length ≤ y.length := hall y (List.mem_cons_self y ys)
    have hzl : (List.zipWith (fun u v => u + v) init y).length = init.length := by
      simp only [List.length_zipWith]
      omega
    rw [ih (List.zipWith (fun u v => u + v) init y) q (by omega)
      (fun z hz => by rw [hzl]; exact hall z (List.mem_cons_of_mem y hz))]
    have hz : (List.zipWith (fun u v => u + v) init y).getD q rZeroPix =
        init.getD q rZeroPix + y.getD q rZeroPix := by
      rw [List.getD_eq_getElem?_getD, List.getElem?_zipWith,
        getElem?_eq_some_getD init q rZeroPix hq,
        getElem?_eq_some_getD y q rZeroPix (by omega)]
      rfl
    rw [hz, List.map_cons, List.sum_cons, add_assoc]

theorem blurCoreSpec_getD (pixels : List ComplexPixel) (w h : ℕ) (p : KernelParamSet)
    (r : ℝ) (m : ℕ) (q : ℕ) (hq : q < w * h) :
    (blurCoreSpec pixels w h p r m).getD q rZeroPix =
      rZeroPix + ((complex_gaussian_kernels p r m).enum.map fun nk => fun c =>
        p.real_component nk.1 *
          (((vFilterSpec (hFilterSpec pixels nk.2 w h) nk.2 w h).getD q cZeroPix) c).1 +
        p.imag_component nk.1 *
          (((vFilterSpec (hFilterSpec pixels nk.2 w h) nk.2 w h).getD q cZeroPix) c).2).sum := by
  unfold blurCoreSpec
  rw [foldl_zipWith_getD _ _ q (by simpa using hq) (fun z hz => by
    rw [List.mem_map] at hz
    obtain ⟨nk, _, rfl⟩ := hz
    simp [vFilterSpec_length])]
  rw [getD_replicate_of_lt _ _ _ _ hq]
  congr 1
  rw [List.map_map]
  congr 1
  apply List.map_congr_left
  intro nk _
  simp only [Function.comp_def]
  rw [getD_map_of_lt _ _ q rZeroPix cZeroPix (by rw [vFilterSpec_length]; exact hq)]

theorem blurCoreSpec_flat_interior (xe : ℝ) (w h : ℕ) (p : KernelParamSet) (r : ℝ)
    (m : ℕ) (j i : ℕ) (hj2 : m ≤ j) (hj3 : j + m < h) (hi2 : m ≤ i) (hi3 : i + m < w) :
    (blurCoreSpec (List.replicate (w * h) (fun _ => ((xe : ℝ), (0 : ℝ)))) w h p r m).getD
        (j * w + i) rZeroPix =
      fun _ => xe * familyEnergy p (complex_gaussian_kernels p r m) := by
  rw [blurCoreSpec_getD _ _ _ _ _ _ _ (idx_lt (by omega) (by omega))]
  rw [List.map_congr_left (g := fun nk => fun _ : Fin 4 =>
      xe * kernelPairSum p nk.1 nk.2) (fun nk hnk => by
    have hlen : nk.2.length = 1 + m * 2 :=
      complex_gaussian_kernels_mem_length p r m nk.2 (List.snd_mem_of_mem_enum hnk)
    rw [vFilterSpec_flat xe nk.2 w h j i (by omega) (by omega) (by omega) (by omega)]
    funext c
    show p.real_component nk.1 *
        (cmulPix (fun _ => ((xe : ℝ), (0 : ℝ))) (cmul nk.2.sum nk.2.sum) c).1 +
      p.imag_component nk.1 *
        (cmulPix (fun _ => ((xe : ℝ), (0 : ℝ))) (cmul nk.2.sum nk.2.sum) c).2 =
      xe * kernelPairSum p nk.1 nk.2
    rw [kernelPairSum_eq_sigma]
    simp only [cmulPix, cmul]
    ring)]
  funext c
  show rZeroPix c + _ = _
  rw [sum_apply_rpix, List.map_map]
  simp only [Function.comp_def]
  rw [List.sum_map_mul_left, ← familyEnergy_eq_sum]
  show 0 + xe * familyEnergy p (complex_gaussian_kernels p r m) = _
  rw [zero_add]

/-! ### The blur of an all-zero image is all-zero -/

theorem getD_replicate_self {α : Type} (n q : ℕ) (a : α) :
    (List.replicate n a).getD q a = a := by
  by_cases hq : q < n
  · exact getD_replicate_of_lt n q a a hq
  · rw [List.getD_eq_getElem?_getD, List.getElem?_eq_none (by simpa using hq)]
    rfl

theorem hFilterSpec_zero_getD (kernel : List ComplexSample) (w h j i : ℕ)
    (hj : j < h) (hi : i < w) :
    (hFilterSpec (List.replicate (w * h) cZeroPix) kernel w h).getD (j * w + i) cZeroPix =
      cZeroPix := by
  rw [hFilterSpec_getD _ _ _ _ _ _ hj hi]
  rw [List.map_congr_left (g := fun _ => (0 : ComplexPixel)) (fun n hn => by
    simp only
    split_ifs with hc
    · rw [getD_replicate_self, cZeroPix_cmulPix]
      rfl
    · rfl)]
  rw [cZeroPix_eq_zero]
  simp

theorem vFilterSpec_zero_getD (kernel : List ComplexSample) (w h j i : ℕ)
    (hj : j < h) (hi : i < w) :
    (vFilterSpec (hFilterSpec (List.replicate (w * h) cZeroPix) kernel w h)
        kernel w h).getD (j * w + i) cZeroPix = cZeroPix := by
  rw [vFilterSpec_getD _ _ _ _ _ _ hj hi]
  rw [List.map_congr_left (g := fun _ => (0 : ComplexPixel)) (fun n hn => by
    simp only
    split_ifs with hc
    · rw [hFilterSpec_zero_getD kernel w h
        (((j : ℤ) - ((kernel.length / 2 : ℕ) : ℤ) + (n : ℤ)).toNat) i (by omega) hi,
        cZeroPix_cmulPix]
      rfl
    · rfl)]
  rw [cZeroPix_eq_zero]
  simp

theorem blurCoreSpec_zero_getD (w h : ℕ) (p : KernelParamSet) (r : ℝ) (m : ℕ)
    (j i : ℕ) (hj : j < h) (hi : i < w) :
    (blurCoreSpec (List.replicate (w * h) cZeroPix) w h p r m).getD (j * w + i)
      rZeroPix = rZeroPix := by
  rw [blurCoreSpec_getD _ _ _ _ _ _ _ (idx_lt hj hi)]
  rw [List.map_congr_left (g := fun _ => (0 : RealPixel)) (fun nk _ => by
    rw [vFilterSpec_zero_getD nk.2 w h j i hj hi]
    funext c
    show p.real_component nk.1 * (cZeroPix c).1 + p.imag_component nk.1 * (cZeroPix c).2 = 0
    show p.real_component nk.1 * 0 + p.imag_component nk.1 * 0 = 0
    ring)]
  simp

/-! ### Claim C4: flat images, interior exactness and the border behaviour -/

/-- Claim C4, amended: for a constant-valued image with channel value
`x ∈ [0, 255]`, any table with positive pre-normalization energy `S`, any
radius, `sampleCount ≥ 1`, `gamma > 0`, and dimensions at least
`2*sampleCount+1`, `bokeh_blur` returns exactly the original constant at
every pixel farther than `sampleCount` from every edge (a consequence of
the family energy being normalized to 1).  Border pixels receive the
partial dropped-tap sums, which need not differ from the constant: for the
all-zero flat image they are equal to it (see the counterexample).  The
restriction to `0 < S` is forced because shipped tables violate `0 < S` at
some radii (see `kernel_normalization_counterexample`), where every
normalized tap is `NaN` in `f64` and interior exactness fails; the
restriction to `gamma > 0` is forced because at `x = 0` with `gamma < 0`
the source encodes `powf(0, gamma) = +inf` and interior pixels become
`NaN`, a non-finite path outside the real-valued model of `powf`. -/
theorem flat_image_interior_exact (x : ℝ) (w h : ℕ) (r : ℝ) (m : ℕ) (γ : ℝ)
    (p : KernelParamSet) (hm : 1 ≤ m) (hwm : 2 * m + 1 ≤ w) (hhm : 2 * m + 1 ≤ h)
    (h0 : 0 ≤ x) (h255 : x ≤ 255) (hγ : 0 < γ)
    (hS : 0 < familyEnergy p (rawKernels p r m)) :
    ∃ out, bokeh_blur (List.replicate (w * h) (constRPix x)) w h r m γ p = some out ∧
      ∀ j i, m ≤ j → j + m < h → m ≤ i → i + m < w →
        out[j * w + i]? = some (constRPix x) := by
  rw [bokeh_blur_eq _ w h r m γ p (by simp)]
  refine ⟨_, rfl, ?_⟩
  intro j i hj2 hj3 hi2 hi3
  have hq : j * w + i < w * h := idx_lt (by omega) (by omega)
  rw [writeback_getElem_decode]
  have hbl := blurCoreSpec_length
    (from_slice (List.replicate (w * h) (constRPix x)) γ) w h p r m
  rw [if_pos ⟨by omega, by simpa using hq⟩]
  rw [getElem?_eq_some_getD _ _ rZeroPix (by omega)]
  have hfs : from_slice (List.replicate (w * h) (constRPix x)) γ =
      List.replicate (w * h) (fun _ => ((x ^ γ : ℝ), (0 : ℝ))) := by
    unfold from_slice constRPix gammaEncode
    rw [List.map_replicate]
  rw [hfs, blurCoreSpec_flat_interior (x ^ γ) w h p r m j i hj2 hj3 hi2 hi3,
    familyEnergy_normalized p r m hS]
  simp only [Option.map_some']
  congr 1
  funext c
  show gammaDecode (x ^ γ * 1) γ = x
  rw [mul_one]
  unfold gammaDecode clampR
  rw [← Real.rpow_mul h0, mul_one_div_cancel (ne_of_gt hγ), Real.rpow_one,
    max_eq_left h0, min_eq_left h255]

/-- Claim C4 counterexample: the flat all-zero 3×3 image (constant 0 is in
`[0, 255]`), 1-component preset table, radius 1, sampleCount 1, dimensions
`3 ≥ 2*1+1`: the corner pixel (0,0) — within sampleCount of an edge —
blurs to exactly the constant 0, so border pixels do NOT always deviate
from the constant. -/
theorem flat_zero_border_counterexample :
    ∃ out, bokeh_blur (List.replicate 9 (constRPix 0)) 3 3 1 1 1 KERNEL1_PARAM_SET =
        some out ∧ out[0]? = some (constRPix 0) := by
  rw [bokeh_blur_eq _ 3 3 1 1 1 _ (by simp)]
  refine ⟨_, rfl, ?_⟩
  rw [writeback_getElem_decode]
  have hbl := blurCoreSpec_length
    (from_slice (List.replicate 9 (constRPix 0)) 1) 3 3 KERNEL1_PARAM_SET 1 1
  rw [if_pos ⟨by omega, by simp⟩]
  rw [getElem?_eq_some_getD _ 0 rZeroPix (by omega)]
  have hfs : from_slice (List.replicate 9 (constRPix 0)) 1 = List.replicate 9 cZeroPix := by
    unfold from_slice constRPix gammaEncode cZeroPix
    rw [List.map_replicate]
    congr 1
    funext ch
    rw [Real.rpow_one]
  rw [hfs]
  have h00 := blurCoreSpec_zero_getD 3 3 KERNEL1_PARAM_SET 1 1 0 0
    (by norm_num) (by norm_num)
  simp only [Nat.zero_mul, Nat.zero_add] at h00
  rw [show (List.replicate 9 cZeroPix) = (List.replicate (3 * 3) cZeroPix) from rfl, h00]
  simp only [Option.map_some']
  rw [decodePix_zero 1 (by norm_num)]
  rfl

/-- Concrete instance of the amended claim C4: flat zero 3×3 image,
1-component preset at radius 0, the center pixel blurs to exactly 0. -/
theorem flat_image_interior_exact_witness :
    ∃ out, bokeh_blur (List.replicate (3 * 3) (constRPix 0)) 3 3 0 1 1
        KERNEL1_PARAM_SET = some out ∧
      ∀ j i, 1 ≤ j → j + 1 < 3 → 1 ≤ i → i + 1 < 3 →
        out[j * 3 + i]? = some (constRPix 0) :=
  flat_image_interior_exact 0 3 3 0 1 1 KERNEL1_PARAM_SET (by norm_num) (by norm_num)
    (by norm_num) (by norm_num) (by norm_num) (by norm_num) S0_pos_K1

/-! ### Claim C1 counterexample: a radius where the shipped 1-component
table has negative pre-normalization energy -/

theorem complex_gaussian_kernel_sum_m1 (r a b : ℝ) :
    (complex_gaussian_kernel r 1 a b).sum =
      (1 + 2 * (Real.exp (-(a * (r * r))) * Real.cos (b * (r * r))),
       2 * (Real.exp (-(a * (r * r))) * Real.sin (b * (r * r)))) := by
  unfold complex_gaussian_kernel
  rw [show List.range (1 + 1 * 2) = [0, 1, 2] from rfl]
  simp only [List.map_cons, List.map_nil, List.sum_cons, List.sum_nil, add_zero,
    Prod.mk_add_mk, Prod.mk.injEq]
  push_cast
  constructor <;> ring_nf <;> norm_num [Real.exp_zero, Real.cos_zero, Real.sin_zero] <;> ring

theorem rawKernels_K1 (r : ℝ) :
    rawKernels KERNEL1_PARAM_SET r 1 =
      [complex_gaussian_kernel r 1 0.862325 1.624835] := rfl

theorem familyEnergy_singleton (p : KernelParamSet) (k : List ComplexSample) :
    familyEnergy p [k] = kernelPairSum p 0 k := by
  rw [familyEnergy_eq_sum]
  simp [List.enum, List.enumFrom]

theorem K1_real_component : KERNEL1_PARAM_SET.real_component 0 = 0.767583 := rfl

theorem K1_imag_component : KERNEL1_PARAM_SET.imag_component 0 = 1.862321 := rfl

theorem K1_S_neg :
    familyEnergy KERNEL1_PARAM_SET
      (rawKernels KERNEL1_PARAM_SET (Real.sqrt (5 * Real.pi / (4 * 1.624835))) 1) < 0 := by
  have hu0 : (0:ℝ) ≤ 5 * Real.pi / (4 * 1.624835) := by positivity
  have hr2 : Real.sqrt (5 * Real.pi / (4 * 1.624835)) *
      Real.sqrt (5 * Real.pi / (4 * 1.624835)) = 5 * Real.pi / (4 * 1.624835) :=
    Real.mul_self_sqrt hu0
  rw [rawKernels_K1, familyEnergy_singleton, kernelPairSum_eq_sigma,
    complex_gaussian_kernel_sum_m1, K1_real_component, K1_imag_component, hr2]
  have hb : (1.624835:ℝ) * (5 * Real.pi / (4 * 1.624835)) = Real.pi + Real.pi / 4 := by
    field_simp
    ring
  rw [hb]
  have hcos : Real.cos (Real.pi + Real.pi / 4) = -(Real.sqrt 2 / 2) := by
    rw [Real.cos_add, Real.cos_pi, Real.sin_pi, Real.cos_pi_div_four]
    ring
  have hsin : Real.sin (Real.pi + Real.pi / 4) = -(Real.sqrt 2 / 2) := by
    rw [Real.sin_add, Real.cos_pi, Real.sin_pi, Real.sin_pi_div_four]
    ring
  rw [hcos, hsin]
  have ht_eq : (0.862325:ℝ) * (5 * Real.pi / (4 * 1.624835))
      = 862325 / 1299868 * Real.pi := by
    field_simp
    ring
  rw [ht_eq]
  have hE_pos : 0 < Real.exp (-(862325 / 1299868 * Real.pi)) := Real.exp_pos _
  have ht_le : (862325 / 1299868 : ℝ) * Real.pi ≤ 862325 / 1299868 * 3.141593 := by
    have hpi := Real.pi_lt_d6
    nlinarith [hpi]
  have ht_ge : (2:ℝ) ≤ 862325 / 1299868 * Real.pi := by
    have hpi := Real.pi_gt_d6
    nlinarith [hpi]
  have hx4 : Real.exp (862325 / 1299868 * 3.141593 / 4) ≤ 1.6842 := by
    have hb4 := Real.exp_bound'
      (show (0:ℝ) ≤ 862325 / 1299868 * 3.141593 / 4 by norm_num)
      (show (862325 / 1299868 * 3.141593 / 4 : ℝ) ≤ 1 by norm_num)
      (show (0:ℕ) < 4 by norm_num)
    refine le_trans hb4 ?_
    simp only [Finset.sum_range_succ, Finset.sum_range_zero]
    norm_num [Nat.factorial]
  have hexp_hi : Real.exp (862325 / 1299868 * 3.141593) ≤ 8.05 := by
    have h4 : Real.exp (862325 / 1299868 * 3.141593)
        = Real.exp (862325 / 1299868 * 3.141593 / 4) ^ (4:ℕ) := by
      rw [← Real.exp_nat_mul]
      norm_num
    rw [h4]
    calc Real.exp (862325 / 1299868 * 3.141593 / 4) ^ (4:ℕ)
        ≤ (1.6842:ℝ) ^ (4:ℕ) := pow_le_pow_left (le_of_lt (Real.exp_pos _)) hx4 4
      _ ≤ 8.05 := by norm_num
  have hE_lo : (8.05:ℝ)⁻¹ ≤ Real.exp (-(862325 / 1299868 * Real.pi)) := by
    rw [Real.exp_neg]
    exact inv_le_inv_of_le (Real.exp_pos _)
      (le_trans (Real.exp_le_exp.mpr ht_le) hexp_hi)
  have hE_hi : Real.exp (-(862325 / 1299868 * Real.pi)) ≤ (3:ℝ)⁻¹ := by
    rw [Real.exp_neg]
    refine inv_le_inv_of_le (by norm_num) ?_
    calc (3:ℝ) = 2 + 1 := by norm_num
      _ ≤ 862325 / 1299868 * Real.pi + 1 := by linarith [ht_ge]
      _ ≤ Real.exp (862325 / 1299868 * Real.pi) := Real.add_one_le_exp _
  have hY_lo : (1.4142135:ℝ) ≤ Real.sqrt 2 :=
    le_of_lt ((Real.lt_sqrt (by norm_num)).mpr (by norm_num))
  have hY2 : Real.sqrt 2 * Real.sqrt 2 = 2 := Real.mul_self_sqrt (by norm_num)
  simp only [cmul]
  nlinarith [hE_lo, hE_hi, hE_pos, hY_lo, hY2,
    mul_nonneg (sub_nonneg.mpr hE_lo) (sub_nonneg.mpr hE_hi),
    mul_nonneg (sub_nonneg.mpr hY_lo) (le_of_lt hE_pos)]

/-- Claim C1 counterexample: for the shipped 1-component preset at
`sampleCount = 1` and radius `sqrt(5π/(4b))` (where the taps' oscillation
argument is exactly `5π/4`), the pre-normalization family energy `S` is
negative, so the source divides every tap by `sqrt(S) = NaN` (modelled here
by `Real.sqrt S = 0`, making every normalized tap `0`); the recomputed
energy is then `0` (`NaN` in `f64`), not `1` within `1e-9`. -/
theorem kernel_normalization_counterexample :
    ¬(|familyEnergy KERNEL1_PARAM_SET
        (complex_gaussian_kernels KERNEL1_PARAM_SET
          (Real.sqrt (5 * Real.pi / (4 * 1.624835))) 1) - 1| ≤ 1e-9) := by
  have h0 : familyEnergy KERNEL1_PARAM_SET
      (complex_gaussian_kernels KERNEL1_PARAM_SET
        (Real.sqrt (5 * Real.pi / (4 * 1.624835))) 1) = 0 := by
    unfold complex_gaussian_kernels
    rw [familyEnergy_div, Real.sqrt_eq_zero_of_nonpos (le_of_lt K1_S_neg), mul_zero,
      div_zero]
  rw [h0]
  norm_num

end Bokeh
